import Mathlib

/-!
Verification development for the readme-generator repository (`generate.py`).

The program scans a project tree for developer-tooling configuration files
(Dockerfiles, docker-compose, VS Code tasks/launch/devcontainer definitions),
extracts metadata, renders markdown/HTML tables and patches the result into a
README between two sentinel comment markers.

This file gives a shallow embedding of the program's data model and operations:

* Python string helpers (`strip`, `upper`, `split`, `basename`) are modelled
  over `List Char` / `String` for the ASCII inputs the program handles.
* The regex-based document patcher `update_readme_table` is modelled exactly
  for its fixed pattern `START.*?END` (DOTALL, non-greedy) including CPython's
  replacement-template expansion (backslash escapes in the replacement).
* JSON / YAML parsing primitives are external library capabilities (per the
  spec) and are taken as parameters (`strict : String → Option JVal`).
* Parsed JSON/YAML data is modelled by the dynamic value type `JVal`.
* The file-system walk of `walk_with_gitignore` is modelled over an explicit
  tree type, with the `pathspec` ignore matchers taken as `String → Bool`
  parameters (another external library capability per the spec).
-/

/-! ### Python string primitives -/

/-- Python's `str.isspace` characters used by `str.strip()` / `str.split()`
(ASCII fragment: space, tab, newline, carriage return, vertical tab, form feed). -/
def pyIsSpace (c : Char) : Bool :=
  c = ' ' || c = '\t' || c = '\n' || c = '\r' || c = '\x0b' || c = '\x0c'

/-- Python `str.strip()` on a character list: drop whitespace from both ends. -/
def pyStripL (l : List Char) : List Char :=
  ((l.dropWhile pyIsSpace).reverse.dropWhile pyIsSpace).reverse

/-- Python `str.strip()`. -/
def pyStrip (s : String) : String :=
  ⟨pyStripL s.data⟩

/-- Python `str.upper()` (ASCII). -/
def pyUpper (s : String) : String :=
  ⟨s.data.map Char.toUpper⟩

/-- Helper for `pySplit`: `acc` is the current word, reversed. -/
def pySplitAux : List Char → List Char → List (List Char)
  | acc, [] => if acc.isEmpty then [] else [acc.reverse]
  | acc, c :: r =>
    if pyIsSpace c then
      if acc.isEmpty then pySplitAux [] r else acc.reverse :: pySplitAux [] r
    else
      pySplitAux (c :: acc) r

/-- Python `str.split()` with no argument: split on whitespace runs, no empty words. -/
def pySplit (s : String) : List String :=
  (pySplitAux [] s.data).map (fun w => ⟨w⟩)

/-- `os.path.basename`: the part after the last `/`. -/
def pyBasename (s : String) : String :=
  ⟨((s.data.reverse.takeWhile (fun c => c ≠ '/'))).reverse⟩

/-! ### Occurrence search over character lists

`update_readme_table` uses `re.sub` with the fixed pattern
`re.escape(start).*?re.escape(end)` under `re.DOTALL`.  For this pattern
`re.sub`'s leftmost, non-overlapping, lazy matching is: find the first
occurrence of the start marker, then the first occurrence of the end marker
after it, replace, and continue after the match.  We model occurrence search
explicitly. -/

/-- `OccAt P l k`: the pattern `P` occurs in `l` starting at index `k`. -/
def OccAt (P l : List Char) (k : Nat) : Prop :=
  (l.drop k).take P.length = P

instance (P l : List Char) (k : Nat) : Decidable (OccAt P l k) := by
  unfold OccAt; infer_instance

/-- Index of the first occurrence of `P` in `l`, if any. -/
def firstOccIdx (P : List Char) : List Char → Option Nat
  | [] => if P = [] then some 0 else none
  | c :: t =>
    if (c :: t).take P.length = P then some 0
    else (firstOccIdx P t).map (· + 1)

/-- Python's `in` operator on strings (substring containment), as used by
`update_readme_table` to test for the markers. -/
def isSubstrB (P l : List Char) : Bool :=
  (firstOccIdx P l).isSome

/-! ### The document patcher `update_readme_table` -/

/-- The start sentinel marker. -/
def startM : List Char := "<!-- README_DEVINFO:START -->".data

/-- The end sentinel marker. -/
def endM : List Char := "<!-- README_DEVINFO:END -->".data

/-- `wrapped_section = f"{start_marker}\n{new_section}\n{end_marker}"`. -/
def wrappedOf (S : List Char) : List Char :=
  startM ++ '\n' :: (S ++ '\n' :: endM)

/-- CPython replacement-template expansion (`sre_parse.parse_template`) for a
pattern with no capture groups: `\n`, `\t`, … become control characters, `\\`
a backslash, a backslash before another ASCII letter, a digit or `g` raises
(`bad escape` / invalid group reference — the pattern has no groups), and a
backslash before any other character is kept literally.  `none` models the
raised exception. -/
def expandTemplate : List Char → Option (List Char)
  | [] => some []
  | c :: r =>
    if c = '\\' then
      match r with
      | [] => none
      | d :: r2 =>
        if d = '\\' then (expandTemplate r2).map (fun e => '\\' :: e)
        else if d = 'n' then (expandTemplate r2).map (fun e => '\n' :: e)
        else if d = 't' then (expandTemplate r2).map (fun e => '\t' :: e)
        else if d = 'r' then (expandTemplate r2).map (fun e => '\r' :: e)
        else if d = 'a' then (expandTemplate r2).map (fun e => '\x07' :: e)
        else if d = 'b' then (expandTemplate r2).map (fun e => '\x08' :: e)
        else if d = 'f' then (expandTemplate r2).map (fun e => '\x0c' :: e)
        else if d = 'v' then (expandTemplate r2).map (fun e => '\x0b' :: e)
        else if d.isDigit || d = 'g' then none
        else if d.isAlpha then none
        else (expandTemplate r2).map (fun e => '\\' :: d :: e)
    else (expandTemplate r).map (fun e => c :: e)

/-- One lazy match of `START.*?END` in `l`: the text before the match and the
text after it.  `none` when there is no match anywhere in `l` (if no end
marker follows the first start marker, none follows any later one either). -/
def splitMatch (l : List Char) : Option (List Char × List Char) :=
  match firstOccIdx startM l with
  | none => none
  | some i =>
    match firstOccIdx endM (l.drop (i + startM.length)) with
    | none => none
    | some j => some (l.take i, l.drop (i + startM.length + j + endM.length))

/-- Fuel-indexed engine for `re.sub`: replace every (non-overlapping, lazy)
match of `START.*?END` by the expanded replacement `R`, scanning left to
right.  The fuel only needs to exceed the number of matches; each match
consumes at least one character, so `l.length` suffices. -/
def subsAux (R : List Char) : Nat → List Char → List Char
  | 0, l => l
  | fuel + 1, l =>
    match splitMatch l with
    | none => l
    | some (pre, rest) => pre ++ R ++ subsAux R fuel rest

/-- `re.sub(f"{re.escape(start)}.*?{re.escape(end)}", R, l, flags=re.DOTALL)`
with an already-expanded replacement `R`. -/
def subRegions (R l : List Char) : List Char :=
  subsAux R l.length l

/-- `update_readme_table(new_section, readme_path)`: the document transition.
`doc = none` models a missing target document; the result is the written
document, or `none` when `re.sub` raises while parsing the replacement
template (the write then never happens). -/
def update_readme_table (S : List Char) (doc : Option (List Char)) : Option (List Char) :=
  match doc with
  | none => some (wrappedOf S)
  | some content =>
    if isSubstrB startM content && isSubstrB endM content then
      (expandTemplate (wrappedOf S)).map (fun R => subRegions R content)
    else
      some (content ++ '\n' :: '\n' :: wrappedOf S)

/-! ### Lemmas: occurrence search -/

theorem occAt_zero {P l : List Char} : OccAt P l 0 ↔ l.take P.length = P := by
  simp [OccAt]

theorem occAt_succ_cons {P : List Char} {c : Char} {t : List Char} {k : Nat} :
    OccAt P (c :: t) (k + 1) ↔ OccAt P t k := by
  simp [OccAt]

theorem firstOccIdx_some {P l : List Char} {n : Nat} (h : firstOccIdx P l = some n) :
    OccAt P l n ∧ ∀ k, k < n → ¬ OccAt P l k := by
  induction l generalizing n with
  | nil =>
    unfold firstOccIdx at h
    split at h
    · rename_i hP
      cases h
      exact ⟨by simp [OccAt, hP], by omega⟩
    · cases h
  | cons c t ih =>
    unfold firstOccIdx at h
    split at h
    · rename_i htake
      cases h
      exact ⟨occAt_zero.mpr htake, by omega⟩
    · rename_i htake
      cases hm : firstOccIdx P t with
      | none => rw [hm] at h; cases h
      | some m =>
        rw [hm] at h
        simp only [Option.map_some'] at h
        cases h
        obtain ⟨h1, h2⟩ := ih hm
        refine ⟨occAt_succ_cons.mpr h1, ?_⟩
        intro k hk
        cases k with
        | zero => exact fun hc => htake (occAt_zero.mp hc)
        | succ j =>
          intro hc
          exact h2 j (by omega) (occAt_succ_cons.mp hc)

theorem firstOccIdx_none {P l : List Char} (h : firstOccIdx P l = none) :
    ∀ k, ¬ OccAt P l k := by
  induction l with
  | nil =>
    unfold firstOccIdx at h
    split at h
    · cases h
    · rename_i hP
      intro k hc
      simp [OccAt] at hc
      exact hP hc
  | cons c t ih =>
    unfold firstOccIdx at h
    split at h
    · cases h
    · rename_i htake
      cases hm : firstOccIdx P t with
      | none =>
        intro k
        cases k with
        | zero => exact fun hc => htake (occAt_zero.mp hc)
        | succ j => exact fun hc => ih hm j (occAt_succ_cons.mp hc)
      | some m => rw [hm] at h; cases h

theorem firstOccIdx_eq_some {P l : List Char} {n : Nat}
    (h1 : OccAt P l n) (h2 : ∀ k, k < n → ¬ OccAt P l k) :
    firstOccIdx P l = some n := by
  induction l generalizing n with
  | nil =>
    have hP : P = [] := by
      have := h1
      simp [OccAt] at this
      exact this
    have hn : n = 0 := by
      by_contra hne
      exact h2 0 (by omega) (by simp [OccAt, hP])
    subst hn
    simp [firstOccIdx, hP]
  | cons c t ih =>
    unfold firstOccIdx
    split
    · rename_i htake
      have hn : n = 0 := by
        by_contra hne
        exact h2 0 (by omega) (occAt_zero.mpr htake)
      simp [hn]
    · rename_i htake
      cases n with
      | zero => exact absurd (occAt_zero.mp h1) htake
      | succ m =>
        have : firstOccIdx P t = some m := by
          refine ih (occAt_succ_cons.mp h1) ?_
          intro k hk hc
          exact h2 (k + 1) (by omega) (occAt_succ_cons.mpr hc)
        simp [this]

theorem isSubstrB_true_iff {P l : List Char} :
    isSubstrB P l = true ↔ ∃ k, OccAt P l k := by
  unfold isSubstrB
  cases h : firstOccIdx P l with
  | none =>
    simp only [Option.isSome_none]
    constructor
    · intro hc; cases hc
    · rintro ⟨k, hk⟩; exact absurd hk (firstOccIdx_none h k)
  | some n =>
    simp only [Option.isSome_some, true_iff]
    exact ⟨n, (firstOccIdx_some h).1⟩

theorem isSubstrB_of_occ {P l : List Char} {k : Nat} (h : OccAt P l k) :
    isSubstrB P l = true :=
  isSubstrB_true_iff.mpr ⟨k, h⟩

/-! ### Lemmas: transferring occurrences across concatenations -/

theorem occAt_of_take_eq {P l₁ l₂ : List Char} {k n : Nat}
    (h : OccAt P l₁ k) (hn : k + P.length ≤ n) (hag : l₁.take n = l₂.take n) :
    OccAt P l₂ k := by
  have key : ∀ l : List Char, (l.drop k).take P.length = ((l.take n).drop k).take P.length := by
    intro l
    rw [List.take_drop, List.take_drop]
    congr 1
    rw [List.take_take, min_eq_left hn]
  unfold OccAt at h ⊢
  rw [key l₂, ← hag, ← key l₁]
  exact h

theorem occAt_getElem? {P l : List Char} {k : Nat} (h : OccAt P l k)
    {j : Nat} (hj : j < P.length) : l[k + j]? = P[j]? := by
  unfold OccAt at h
  conv_rhs => rw [← h]
  rw [List.getElem?_take_of_lt hj, List.getElem?_drop]

theorem mem_of_occAt {P l : List Char} {k j : Nat} {c : Char}
    (h : OccAt P l k) (hj : j < P.length) (hc : l[k + j]? = some c) : c ∈ P := by
  have h2 := occAt_getElem? h hj
  rw [hc] at h2
  exact List.getElem?_mem h2.symm

/-! ### Facts about the sentinel markers -/

theorem startM_length : startM.length = 29 := rfl

theorem endM_length : endM.length = 27 := rfl

theorem newline_not_mem_startM : '\n' ∉ startM := by decide

theorem newline_not_mem_endM : '\n' ∉ endM := by decide

theorem backslash_not_mem_startM : '\\' ∉ startM := by decide

theorem backslash_not_mem_endM : '\\' ∉ endM := by decide

theorem wrappedOf_length (S : List Char) : (wrappedOf S).length = S.length + 58 := by
  simp [wrappedOf, startM_length, endM_length]
  omega

theorem backslash_not_mem_wrappedOf {S : List Char} (h : '\\' ∉ S) : '\\' ∉ wrappedOf S := by
  unfold wrappedOf
  intro hmem
  rcases List.mem_append.mp hmem with h1 | h1
  · exact backslash_not_mem_startM h1
  · rcases List.mem_cons.mp h1 with h2 | h2
    · exact absurd h2 (by decide)
    · rcases List.mem_append.mp h2 with h3 | h3
      · exact h h3
      · rcases List.mem_cons.mp h3 with h4 | h4
        · exact absurd h4 (by decide)
        · exact backslash_not_mem_endM h4

/-! ### Locating the lazy match -/

theorem firstOccIdx_endM_wrapped_tail {S T : List Char}
    (hS : firstOccIdx endM S = none) :
    firstOccIdx endM ('\n' :: (S ++ '\n' :: (endM ++ T))) = some (S.length + 2) := by
  have hassoc : ('\n' :: (S ++ '\n' :: (endM ++ T))) =
      ('\n' :: S) ++ ('\n' :: (endM ++ T)) := by simp
  apply firstOccIdx_eq_some
  · unfold OccAt
    have hdrop : ('\n' :: (S ++ '\n' :: (endM ++ T))).drop (S.length + 2) = endM ++ T := by
      rw [hassoc]
      have h1 : S.length + 2 = ('\n' :: S).length + 1 := by simp
      rw [h1, ← List.drop_drop]
      rw [List.drop_left]
      rfl
    rw [hdrop]
    exact List.take_left endM T
  · intro k hk hcon
    rcases Nat.eq_zero_or_pos k with hk0 | hkpos
    · subst hk0
      have h2 := occAt_getElem? hcon (j := 0) (by rw [endM_length]; omega)
      rw [show (0 : Nat) + 0 = 0 from rfl, List.getElem?_cons_zero,
        show endM[0]? = some '<' from by decide] at h2
      exact absurd h2 (by decide)
    · by_cases hin : k + endM.length ≤ S.length + 1
      · -- the occurrence sits entirely inside S
        have hocc : OccAt endM S (k - 1) := by
          unfold OccAt at hcon ⊢
          rw [hassoc] at hcon
          rw [List.drop_append_of_le_length (by simp; omega)] at hcon
          have h4 : ('\n' :: S).drop k = S.drop (k - 1) := by
            cases k with
            | zero => omega
            | succ m => simp
          rw [h4] at hcon
          rw [List.take_append_of_le_length (by simp; omega)] at hcon
          exact hcon
        exact firstOccIdx_none hS (k - 1) hocc
      · -- the occurrence would cover the newline before the end marker
        have hj : S.length + 1 - k < endM.length := by omega
        have hpos : ('\n' :: (S ++ '\n' :: (endM ++ T)))[S.length + 1]? = some '\n' := by
          rw [hassoc]
          rw [List.getElem?_append_right (by simp)]
          simp
        have h5 : k + (S.length + 1 - k) = S.length + 1 := by omega
        have h6 := mem_of_occAt hcon hj (by rw [h5]; exact hpos)
        exact newline_not_mem_endM h6

theorem splitMatch_decomp {p S T : List Char}
    (hS : firstOccIdx endM S = none)
    (hp : ∀ k, k < p.length → ¬ OccAt startM (p ++ wrappedOf S ++ T) k) :
    splitMatch (p ++ wrappedOf S ++ T) = some (p, T) := by
  have hassoc1 : p ++ wrappedOf S ++ T = (p ++ startM) ++ ('\n' :: (S ++ '\n' :: (endM ++ T))) := by
    simp [wrappedOf]
  have hocc : OccAt startM (p ++ wrappedOf S ++ T) p.length := by
    unfold OccAt
    rw [List.append_assoc, List.drop_left]
    rw [show wrappedOf S ++ T = startM ++ ('\n' :: (S ++ '\n' :: endM) ++ T) from by
      simp [wrappedOf]]
    exact List.take_left _ _
  have hfs : firstOccIdx startM (p ++ wrappedOf S ++ T) = some p.length :=
    firstOccIdx_eq_some hocc hp
  have hdrop : (p ++ wrappedOf S ++ T).drop (p.length + startM.length) =
      '\n' :: (S ++ '\n' :: (endM ++ T)) := by
    rw [hassoc1, show p.length + startM.length = (p ++ startM).length from by simp,
      List.drop_left]
  have hfe := firstOccIdx_endM_wrapped_tail (T := T) hS
  have htake : (p ++ wrappedOf S ++ T).take p.length = p := by
    rw [List.append_assoc]
    exact List.take_left _ _
  have hdrop2 : (p ++ wrappedOf S ++ T).drop
      (p.length + startM.length + (S.length + 2) + endM.length) = T := by
    rw [show p.length + startM.length + (S.length + 2) + endM.length = (p ++ wrappedOf S).length
        from by simp [wrappedOf_length, startM_length, endM_length]; omega,
      List.drop_left]
  simp only [splitMatch, hfs, hdrop, hfe, htake, hdrop2]

theorem splitMatch_some_inv {l pre rest : List Char}
    (h : splitMatch l = some (pre, rest)) :
    ∃ i j, firstOccIdx startM l = some i ∧
      firstOccIdx endM (l.drop (i + startM.length)) = some j ∧
      pre = l.take i ∧ rest = l.drop (i + startM.length + j + endM.length) := by
  unfold splitMatch at h
  cases h1 : firstOccIdx startM l with
  | none => simp only [h1] at h; exact Option.noConfusion h
  | some i =>
    simp only [h1] at h
    cases h2 : firstOccIdx endM (l.drop (i + startM.length)) with
    | none => simp only [h2] at h; exact Option.noConfusion h
    | some j =>
      simp only [h2, Option.some.injEq, Prod.mk.injEq] at h
      exact ⟨i, j, rfl, h2, h.1.symm, h.2.symm⟩

theorem startM_ne_nil : startM ≠ [] := by decide

theorem endM_ne_nil : endM ≠ [] := by decide

theorem occAt_add_le_length {P l : List Char} {i : Nat} (hP : P ≠ []) (h : OccAt P l i) :
    i + P.length ≤ l.length := by
  have h4 := congrArg List.length h
  simp [List.length_take, List.length_drop] at h4
  have h5 : 0 < P.length := List.length_pos.mpr hP
  omega

theorem splitMatch_length_lt {l pre rest : List Char}
    (h : splitMatch l = some (pre, rest)) : rest.length < l.length := by
  obtain ⟨i, j, h1, h2, hpre, hrest⟩ := splitMatch_some_inv h
  have hocc := (firstOccIdx_some h1).1
  have hle := occAt_add_le_length startM_ne_nil hocc
  rw [startM_length] at hle
  subst hrest
  simp [List.length_drop, startM_length, endM_length]
  omega

/-! ### The `re.sub` engine: fuel elimination and unfolding -/

theorem subsAux_split_none {R l : List Char} (h : splitMatch l = none) (fuel : Nat) :
    subsAux R fuel l = l := by
  cases fuel with
  | zero => rfl
  | succ f => simp [subsAux, h]

theorem splitMatch_nil : splitMatch ([] : List Char) = none := by decide

theorem subRegions_of_none {R l : List Char} (h : splitMatch l = none) : subRegions R l = l :=
  subsAux_split_none h _

theorem subsAux_fuel_eq {R : List Char} :
    ∀ n l f₁ f₂, l.length ≤ n → l.length ≤ f₁ → l.length ≤ f₂ →
      subsAux R f₁ l = subsAux R f₂ l := by
  intro n
  induction n with
  | zero =>
    intro l f₁ f₂ hn h1 h2
    have hl : l = [] := List.length_eq_zero.mp (by omega)
    subst hl
    rw [subsAux_split_none splitMatch_nil, subsAux_split_none splitMatch_nil]
  | succ n ih =>
    intro l f₁ f₂ hn h1 h2
    cases hsm : splitMatch l with
    | none => rw [subsAux_split_none hsm, subsAux_split_none hsm]
    | some pr =>
      obtain ⟨pre, rest⟩ := pr
      have hlt := splitMatch_length_lt hsm
      cases f₁ with
      | zero => omega
      | succ g₁ =>
        cases f₂ with
        | zero => omega
        | succ g₂ =>
          simp only [subsAux, hsm]
          rw [ih rest g₁ g₂ (by omega) (by omega) (by omega)]

theorem subRegions_of_some {R l pre rest : List Char}
    (h : splitMatch l = some (pre, rest)) :
    subRegions R l = pre ++ R ++ subRegions R rest := by
  have hlt := splitMatch_length_lt h
  unfold subRegions
  cases hl : l.length with
  | zero => omega
  | succ n =>
    simp only [subsAux, h]
    rw [subsAux_fuel_eq (R := R) rest.length rest n rest.length le_rfl (by omega) le_rfl]

/-! ### Replacement-template facts -/

theorem expandTemplate_no_backslash {l : List Char} (h : '\\' ∉ l) :
    expandTemplate l = some l := by
  induction l with
  | nil => rfl
  | cons c r ih =>
    have hc : c ≠ '\\' := fun he => h (he ▸ List.mem_cons_self c r)
    have hr : '\\' ∉ r := fun hm => h (List.mem_cons_of_mem _ hm)
    unfold expandTemplate
    rw [if_neg hc, ih hr]
    rfl

/-! ### Marker occurrences inside patched documents -/

theorem occ_startM_ctx (p S T : List Char) :
    OccAt startM (p ++ wrappedOf S ++ T) p.length := by
  unfold OccAt
  rw [List.append_assoc, List.drop_left]
  rw [show wrappedOf S ++ T = startM ++ ('\n' :: (S ++ '\n' :: endM) ++ T) from by
    simp [wrappedOf]]
  exact List.take_left _ _

theorem occ_endM_ctx (p S T : List Char) :
    OccAt endM (p ++ wrappedOf S ++ T) (p.length + (S.length + 31)) := by
  unfold OccAt
  have hassoc : p ++ wrappedOf S ++ T = (p ++ (startM ++ '\n' :: S ++ ['\n'])) ++ (endM ++ T) := by
    simp [wrappedOf]
  rw [hassoc]
  rw [show p.length + (S.length + 31) = (p ++ (startM ++ '\n' :: S ++ ['\n'])).length from by
    simp [startM_length]; omega]
  rw [List.drop_left]
  exact List.take_left _ _

theorem subRegions_pre_wrapped {p S T : List Char}
    (hS : firstOccIdx endM S = none)
    (hp : ∀ k, k < p.length → ¬ OccAt startM (p ++ wrappedOf S ++ T) k) :
    subRegions (wrappedOf S) (p ++ wrappedOf S ++ T) =
      p ++ wrappedOf S ++ subRegions (wrappedOf S) T :=
  subRegions_of_some (splitMatch_decomp hS hp)

/-! ### Idempotence of the replacement pass -/

theorem subRegions_wrapped_idem {S : List Char} (hS : firstOccIdx endM S = none) (l : List Char) :
    subRegions (wrappedOf S) (subRegions (wrappedOf S) l) = subRegions (wrappedOf S) l := by
  suffices H : ∀ n l, l.length ≤ n →
      subRegions (wrappedOf S) (subRegions (wrappedOf S) l) = subRegions (wrappedOf S) l from
    H l.length l le_rfl
  intro n
  induction n with
  | zero =>
    intro l hl
    have h0 : l = [] := List.length_eq_zero.mp (by omega)
    subst h0
    rw [subRegions_of_none splitMatch_nil, subRegions_of_none splitMatch_nil]
  | succ n ih =>
    intro l hl
    cases hsm : splitMatch l with
    | none => rw [subRegions_of_none hsm, subRegions_of_none hsm]
    | some pr =>
      obtain ⟨pre, rest⟩ := pr
      obtain ⟨i, j, h1, h2, hpre, hrest⟩ := splitMatch_some_inv hsm
      have hocc := (firstOccIdx_some h1).1
      have hmin := (firstOccIdx_some h1).2
      have hi29 := occAt_add_le_length startM_ne_nil hocc
      have hprelen : pre.length = i := by
        rw [hpre]
        simp [List.length_take]
        omega
      have happ1 : subRegions (wrappedOf S) l =
          pre ++ wrappedOf S ++ subRegions (wrappedOf S) rest := subRegions_of_some hsm
      set T := subRegions (wrappedOf S) rest with hT
      have htr : ∀ k, k < pre.length → ¬ OccAt startM (pre ++ wrappedOf S ++ T) k := by
        intro k hk hcon
        apply hmin k (by omega)
        have hagree : (pre ++ wrappedOf S ++ T).take (i + startM.length) =
            l.take (i + startM.length) := by
          have e1 : (pre ++ wrappedOf S ++ T).take (i + startM.length) = pre ++ startM := by
            rw [show pre ++ wrappedOf S ++ T =
                (pre ++ startM) ++ ('\n' :: (S ++ '\n' :: endM) ++ T) from by simp [wrappedOf]]
            rw [show i + startM.length = (pre ++ startM).length from by simp [hprelen]]
            exact List.take_left _ _
          have e2 : l.take (i + startM.length) = pre ++ startM := by
            rw [List.take_add, ← hpre]
            have hocc2 : (l.drop i).take startM.length = startM := hocc
            rw [hocc2]
          rw [e1, e2]
        exact occAt_of_take_eq hcon (by omega) hagree
      have happ2 : subRegions (wrappedOf S) (pre ++ wrappedOf S ++ T) =
          pre ++ wrappedOf S ++ subRegions (wrappedOf S) T := subRegions_pre_wrapped hS htr
      have hrlen : rest.length ≤ n := by
        have := splitMatch_length_lt hsm
        omega
      have hidem : subRegions (wrappedOf S) T = T := ih rest hrlen
      rw [happ1, happ2, hidem]

theorem occ_startM_wrapped (S : List Char) : OccAt startM (wrappedOf S) 0 := by
  have h := occ_startM_ctx [] S []
  simpa using h

theorem occ_endM_wrapped (S : List Char) : OccAt endM (wrappedOf S) (S.length + 31) := by
  have h := occ_endM_ctx [] S []
  simpa using h

theorem subRegions_wrapped_self {S : List Char} (hS : firstOccIdx endM S = none) :
    subRegions (wrappedOf S) (wrappedOf S) = wrappedOf S := by
  have h := subRegions_pre_wrapped (p := []) (T := []) hS
    (by intro k hk hcon; simp at hk)
  simpa [subRegions_of_none splitMatch_nil] using h

theorem no_start_in_doc_prefix {c S : List Char}
    (hc : ∀ k, ¬ OccAt startM c k) (k : Nat) (hk : k < (c ++ ['\n', '\n']).length) :
    ¬ OccAt startM ((c ++ ['\n', '\n']) ++ wrappedOf S ++ []) k := by
  intro hcon
  have hk2 : k < c.length + 2 := by simpa using hk
  have hform : (c ++ ['\n', '\n']) ++ wrappedOf S ++ [] = c ++ (['\n', '\n'] ++ wrappedOf S) := by
    simp
  by_cases hfit : k + startM.length ≤ c.length
  · apply hc k
    refine occAt_of_take_eq hcon hfit ?_
    rw [hform, List.take_append_of_le_length (by omega)]
  · have hs29 : startM.length = 29 := startM_length
    by_cases hkc : k ≤ c.length
    · have hj : c.length - k < startM.length := by omega
      have hpos : ((c ++ ['\n', '\n']) ++ wrappedOf S ++ [])[c.length]? = some '\n' := by
        rw [hform, List.getElem?_append_right (le_refl c.length)]
        simp
      have hmem := mem_of_occAt hcon hj
        (by rw [show k + (c.length - k) = c.length from by omega]; exact hpos)
      exact absurd hmem (by decide)
    · have hk1 : k = c.length + 1 := by omega
      have hpos : ((c ++ ['\n', '\n']) ++ wrappedOf S ++ [])[c.length + 1]? = some '\n' := by
        rw [hform, List.getElem?_append_right (by omega)]
        simp
      have hmem := mem_of_occAt hcon (j := 0) (by omega)
        (by rw [show k + 0 = c.length + 1 from by omega]; exact hpos)
      exact absurd hmem (by decide)

theorem update_some_replace {S c : List Char}
    (h : (isSubstrB startM c && isSubstrB endM c) = true) :
    update_readme_table S (some c) =
      (expandTemplate (wrappedOf S)).map (fun R => subRegions R c) := by
  simp only [update_readme_table, h, if_true]

theorem update_some_append {S c : List Char}
    (h : (isSubstrB startM c && isSubstrB endM c) = false) :
    update_readme_table S (some c) = some (c ++ '\n' :: '\n' :: wrappedOf S) := by
  simp only [update_readme_table, h]
  rfl

/-- C1 (amended): the document patcher is idempotent provided the section text
contains no end marker and no backslash, and the target document does not
contain the start marker without the end marker.  (The unrestricted claim is
refuted by `C1_counterexample`.) -/
theorem C1_patch_idempotent (S : List Char) (doc : Option (List Char))
    (hS : firstOccIdx endM S = none)
    (hBS : '\\' ∉ S)
    (hDoc : ∀ c, doc = some c → isSubstrB startM c = true → isSubstrB endM c = true) :
    (update_readme_table S doc).bind (fun d => update_readme_table S (some d)) =
      update_readme_table S doc := by
  have hexp : expandTemplate (wrappedOf S) = some (wrappedOf S) :=
    expandTemplate_no_backslash (backslash_not_mem_wrappedOf hBS)
  cases doc with
  | none =>
    show update_readme_table S (some (wrappedOf S)) = some (wrappedOf S)
    rw [update_some_replace (by
      rw [isSubstrB_of_occ (occ_startM_wrapped S), isSubstrB_of_occ (occ_endM_wrapped S)]; rfl)]
    rw [hexp, Option.map_some', subRegions_wrapped_self hS]
  | some c =>
    by_cases hcond : (isSubstrB startM c && isSubstrB endM c) = true
    · have h1 : update_readme_table S (some c) = some (subRegions (wrappedOf S) c) := by
        rw [update_some_replace hcond, hexp, Option.map_some']
      rw [h1]
      show update_readme_table S (some (subRegions (wrappedOf S) c)) =
        some (subRegions (wrappedOf S) c)
      cases hsm : splitMatch c with
      | none =>
        rw [subRegions_of_none hsm]
        rw [update_some_replace hcond, hexp, Option.map_some', subRegions_of_none hsm]
      | some pr =>
        obtain ⟨pre, rest⟩ := pr
        have hform : subRegions (wrappedOf S) c =
            pre ++ wrappedOf S ++ subRegions (wrappedOf S) rest := subRegions_of_some hsm
        have hidem := subRegions_wrapped_idem hS c
        rw [hform]
        rw [update_some_replace (by
          rw [isSubstrB_of_occ (occ_startM_ctx pre S _), isSubstrB_of_occ (occ_endM_ctx pre S _)]
          rfl)]
        rw [hexp, Option.map_some', ← hform, hidem]
    · have hfalse : (isSubstrB startM c && isSubstrB endM c) = false := by
        cases h : (isSubstrB startM c && isSubstrB endM c) with
        | false => rfl
        | true => exact absurd h hcond
      have hnostart : firstOccIdx startM c = none := by
        cases h : firstOccIdx startM c with
        | none => rfl
        | some i =>
          have h1 : isSubstrB startM c = true := by unfold isSubstrB; rw [h]; rfl
          have h2 := hDoc c rfl h1
          rw [h1, h2] at hfalse
          exact absurd hfalse (by decide)
      have hcall : ∀ k, ¬ OccAt startM c k := firstOccIdx_none hnostart
      rw [update_some_append hfalse]
      show update_readme_table S (some (c ++ '\n' :: '\n' :: wrappedOf S)) =
        some (c ++ '\n' :: '\n' :: wrappedOf S)
      have hform : c ++ '\n' :: '\n' :: wrappedOf S =
          (c ++ ['\n', '\n']) ++ wrappedOf S ++ [] := by simp
      rw [hform]
      rw [update_some_replace (by
        rw [isSubstrB_of_occ (occ_startM_ctx (c ++ ['\n', '\n']) S []),
          isSubstrB_of_occ (occ_endM_ctx (c ++ ['\n', '\n']) S [])]
        rfl)]
      rw [hexp, Option.map_some',
        subRegions_pre_wrapped hS (fun k hk => no_start_in_doc_prefix hcall k hk),
        subRegions_of_none splitMatch_nil]

/-- C1 witness: a concrete instance of the amended idempotence theorem, with
hypotheses discharged by evaluation. -/
theorem C1_patch_idempotent_witness :
    (update_readme_table "new".data (some "hello".data)).bind
        (fun d => update_readme_table "new".data (some d)) =
      update_readme_table "new".data (some "hello".data) :=
  C1_patch_idempotent "new".data (some "hello".data) (by decide) (by decide)
    (fun c hc => by cases hc; intro h; exact absurd h (by decide))

/-- C1 counterexample: patching is not idempotent as claimed.  For the document
consisting of just the start marker and the empty section text, the first patch
appends a wrapped section, and the second patch collapses the document to the
wrapped section alone — the two results differ byte-wise. -/
theorem C1_counterexample :
    update_readme_table [] (some startM) =
      some (startM ++ '\n' :: '\n' :: wrappedOf []) ∧
    update_readme_table [] (some (startM ++ '\n' :: '\n' :: wrappedOf [])) =
      some (wrappedOf []) ∧
    startM ++ '\n' :: '\n' :: wrappedOf [] ≠ wrappedOf [] := by
  refine ⟨?_, ?_, ?_⟩ <;> decide

theorem splitMatch_none_of_no_start {l : List Char}
    (h : firstOccIdx startM l = none) : splitMatch l = none := by
  unfold splitMatch
  rw [h]

/-- C5 (amended): when the document decomposes as `pre ++ START ++ mid ++ END
++ post` with the first start marker at `pre.length`, the first following end
marker closing the region, and no start marker in `post`, patching replaces
exactly that region by the wrapped section and leaves `pre` and `post`
byte-identical; when the document lacks one of the markers the wrapped section
is appended after two newlines; when the document is missing it is created
containing only the wrapped section.  (The claim as frozen — replacement
whenever both markers are merely present — is refuted by
`C5_counterexample`, where the end marker precedes the start marker and the
document is returned unchanged.) -/
theorem C5_patch_frame (S pre mid post : List Char) (hBS : '\\' ∉ S)
    (h1 : firstOccIdx startM (pre ++ startM ++ mid ++ endM ++ post) = some pre.length)
    (h2 : firstOccIdx endM (mid ++ endM ++ post) = some mid.length)
    (h3 : firstOccIdx startM post = none) :
    update_readme_table S (some (pre ++ startM ++ mid ++ endM ++ post)) =
      some (pre ++ wrappedOf S ++ post) ∧
    (∀ content : List Char, (isSubstrB startM content && isSubstrB endM content) = false →
      update_readme_table S (some content) = some (content ++ '\n' :: '\n' :: wrappedOf S)) ∧
    update_readme_table S none = some (wrappedOf S) := by
  refine ⟨?_, fun content hfalse => update_some_append hfalse, rfl⟩
  have hexp : expandTemplate (wrappedOf S) = some (wrappedOf S) :=
    expandTemplate_no_backslash (backslash_not_mem_wrappedOf hBS)
  have hsubstr1 : isSubstrB startM (pre ++ startM ++ mid ++ endM ++ post) = true := by
    unfold isSubstrB
    rw [h1]
    rfl
  have hoccE : OccAt endM (mid ++ endM ++ post) mid.length := (firstOccIdx_some h2).1
  have hsubstr2 : isSubstrB endM (pre ++ startM ++ mid ++ endM ++ post) = true := by
    refine isSubstrB_of_occ (k := pre.length + startM.length + mid.length) ?_
    unfold OccAt at hoccE ⊢
    rw [show pre ++ startM ++ mid ++ endM ++ post =
      (pre ++ startM) ++ (mid ++ endM ++ post) from by simp]
    rw [show pre.length + startM.length + mid.length = (pre ++ startM).length + mid.length
      from by simp]
    rw [← List.drop_drop, List.drop_left]
    exact hoccE
  rw [update_some_replace (by rw [hsubstr1, hsubstr2]; rfl), hexp, Option.map_some']
  have hdropSM : (pre ++ startM ++ mid ++ endM ++ post).drop (pre.length + startM.length) =
      mid ++ endM ++ post := by
    rw [show pre ++ startM ++ mid ++ endM ++ post =
      (pre ++ startM) ++ (mid ++ endM ++ post) from by simp]
    rw [show pre.length + startM.length = (pre ++ startM).length from by simp]
    exact List.drop_left _ _
  have htake : (pre ++ startM ++ mid ++ endM ++ post).take pre.length = pre := by
    rw [show pre ++ startM ++ mid ++ endM ++ post =
      pre ++ (startM ++ mid ++ endM ++ post) from by simp]
    exact List.take_left _ _
  have hdropAll : (pre ++ startM ++ mid ++ endM ++ post).drop
      (pre.length + startM.length + mid.length + endM.length) = post := by
    rw [show pre ++ startM ++ mid ++ endM ++ post =
      (pre ++ startM ++ mid ++ endM) ++ post from by simp]
    rw [show pre.length + startM.length + mid.length + endM.length =
      (pre ++ startM ++ mid ++ endM).length from by simp; omega]
    exact List.drop_left _ _
  have hsm : splitMatch (pre ++ startM ++ mid ++ endM ++ post) = some (pre, post) := by
    simp only [splitMatch, h1, hdropSM, h2, htake, hdropAll]
  rw [subRegions_of_some hsm, subRegions_of_none (splitMatch_none_of_no_start h3)]

/-- C5 witness: a concrete instance of the frame theorem. -/
theorem C5_patch_frame_witness :
    update_readme_table "new".data
        (some ("A ".data ++ startM ++ "old".data ++ endM ++ " B".data)) =
      some ("A ".data ++ wrappedOf "new".data ++ " B".data) ∧
    (∀ content : List Char, (isSubstrB startM content && isSubstrB endM content) = false →
      update_readme_table "new".data (some content) =
        some (content ++ '\n' :: '\n' :: wrappedOf "new".data)) ∧
    update_readme_table "new".data none = some (wrappedOf "new".data) :=
  C5_patch_frame "new".data "A ".data "old".data " B".data
    (by decide) (by decide) (by decide) (by decide)

/-- C5 counterexample: a document that contains both markers but with the end
marker before the start marker is returned unchanged — nothing is replaced and
the new section text does not appear in the result, refuting the claim that
containing both markers suffices for the region to be rewritten. -/
theorem C5_counterexample :
    update_readme_table "new".data (some (endM ++ startM)) = some (endM ++ startM) ∧
    firstOccIdx "new".data (endM ++ startM) = none := by
  constructor <;> decide

/-! ### `remove_json_comments` / `remove_trailing_commas` / `parse_json_file`

The cleaning regex is `("(?:\\.|[^"\\])*")|(/\*.*?\*/|//.*?$)` with
`re.MULTILINE | re.DOTALL`; group 1 (a string literal) is kept verbatim,
group 2 (a block comment or a line comment up to the end of its line) is
removed.  Alternation prefers the string-literal group, and both groups are
deterministic, so the scan is: at a quote, consume a string literal (kept); at
`/*`, drop through the next `*/`; at `//`, drop up to (excluding) the next
newline; otherwise keep the character and advance. -/

/-- Consume the body of a string literal after its opening quote:
`(?:\\.|[^"\\])*"`.  Returns the body and the text after the closing quote;
`none` when the literal is unterminated (the group fails to match). -/
def consumeStr : List Char → Option (List Char × List Char)
  | [] => none
  | c :: r =>
    if c = '"' then some ([], r)
    else if c = '\\' then
      match r with
      | [] => none
      | d :: r2 => (consumeStr r2).map (fun p => ('\\' :: d :: p.1, p.2))
    else (consumeStr r).map (fun p => (c :: p.1, p.2))

/-- `//.*?$` under `MULTILINE`: the lazy `.*?` stops at the first position
where `$` matches, i.e. just before the next newline (which is kept). -/
def dropToEol : List Char → List Char
  | [] => []
  | c :: r => if c = '\n' then c :: r else dropToEol r

/-- `/\*.*?\*/`: drop through the first `*/`; `none` when unterminated. -/
def dropBlock : List Char → Option (List Char)
  | [] => none
  | c :: r =>
    match r with
    | [] => none
    | d :: r2 => if c = '*' ∧ d = '/' then some r2 else dropBlock r

/-- One step of the cleaning scan at the current position: the emitted output
chunk and the remaining input (for nonempty input at least one character is
consumed). -/
def rjcStep : List Char → (List Char × List Char)
  | [] => ([], [])
  | c :: r =>
    if c = '"' then
      match consumeStr r with
      | some (b, rest) => ('"' :: b ++ ['"'], rest)
      | none => (['"'], r)
    else if c = '/' then
      match r with
      | [] => ([c], r)
      | d :: r2 =>
        if d = '*' then
          match dropBlock r2 with
          | some rest => ([], rest)
          | none => (['/'], r)
        else if d = '/' then ([], dropToEol r2)
        else ([c], r)
    else ([c], r)

/-- Fuel-indexed driver of the cleaning scan (`l.length` fuel suffices). -/
def rjcAux : Nat → List Char → List Char
  | 0, l => l
  | _ + 1, [] => []
  | fuel + 1, l => (rjcStep l).1 ++ rjcAux fuel (rjcStep l).2

/-- `remove_json_comments` over character lists. -/
def removeJsonCommentsL (l : List Char) : List Char :=
  rjcAux l.length l

/-- `remove_json_comments(text)`. -/
def remove_json_comments (s : String) : String :=
  ⟨removeJsonCommentsL s.data⟩

/-- One step of `re.sub(r',\s*([}\]])', r'\1', text)`: at a comma, if the
first character after a run of whitespace is a closer, the comma and the
whitespace are removed (the closer is kept and scanning resumes after it);
otherwise scanning advances one character. -/
def rtcAux : Nat → List Char → List Char
  | 0, l => l
  | _ + 1, [] => []
  | fuel + 1, c :: r =>
    if c = ',' then
      match r.dropWhile pyIsSpace with
      | d :: rest =>
        if d = '}' || d = ']' then d :: rtcAux fuel rest
        else ',' :: rtcAux fuel r
      | [] => ',' :: rtcAux fuel r
    else c :: rtcAux fuel r

/-- `remove_trailing_commas(text)`. -/
def remove_trailing_commas (s : String) : String :=
  ⟨rtcAux s.data.length s.data⟩

/-- `parse_json_file`, with the strict `json` library parser abstracted as a
parameter (the spec treats the JSON parsing primitive as an external library
capability).  `file = none` models a missing/unreadable file (the outer
`except Exception` logs and returns `None`); a strict-parse failure
(`JSONDecodeError`) triggers the clean-and-retry path; a failure of the retry
is logged and yields `None`. -/
def parse_json_file {α : Type} (strict : String → Option α) (file : Option String) :
    Option α :=
  match file with
  | none => none
  | some text =>
    match strict text with
    | some v => some v
    | none => strict (remove_trailing_commas (remove_json_comments text))

/-- `parse_yaml_file`, with the `yaml.safe_load` primitive abstracted as a
parameter; failures (unreadable file, YAML error) are logged and yield `None`. -/
def parse_yaml_file {α : Type} (yamlLoad : String → Option α) (file : Option String) :
    Option α :=
  match file with
  | none => none
  | some text => yamlLoad text

/-! ### Lemmas about the cleaning scan -/

theorem dropToEol_length_le : ∀ l : List Char, (dropToEol l).length ≤ l.length := by
  intro l
  induction l with
  | nil => simp [dropToEol]
  | cons c r ih =>
    unfold dropToEol
    split
    · exact le_refl _
    · exact Nat.le_trans ih (by simp)

theorem dropBlock_length : ∀ l rest : List Char, dropBlock l = some rest →
    rest.length < l.length := by
  intro l
  induction l with
  | nil => intro rest h; cases h
  | cons c r ih =>
    intro rest h
    cases r with
    | nil => simp [dropBlock] at h
    | cons d r2 =>
      by_cases hcd : c = '*' ∧ d = '/'
      · simp [dropBlock, hcd] at h
        subst h
        simp
        omega
      · simp only [dropBlock, if_neg hcd] at h
        have := ih rest h
        simp at this ⊢
        omega

theorem consumeStr_length : ∀ n l, l.length ≤ n → ∀ b rest, consumeStr l = some (b, rest) →
    rest.length < l.length := by
  intro n
  induction n with
  | zero =>
    intro l hl b rest h
    have : l = [] := List.length_eq_zero.mp (by omega)
    subst this
    cases h
  | succ n ih =>
    intro l hl b rest h
    cases l with
    | nil => cases h
    | cons c r =>
      by_cases hq : c = '"'
      · subst hq
        rw [consumeStr.eq_def] at h
        simp at h
        obtain ⟨h1, h2⟩ := h
        subst h2
        simp
      · by_cases hb : c = '\\'
        · subst hb
          cases r with
          | nil => rw [consumeStr.eq_def] at h; simp at h
          | cons d r2 =>
            cases hcs : consumeStr r2 with
            | none => rw [consumeStr.eq_def] at h; simp [hcs] at h
            | some pq =>
              obtain ⟨p, q⟩ := pq
              have hrq : rest = q := by
                rw [consumeStr.eq_def] at h
                simp [hcs] at h
                exact h.2.symm
              rw [hrq]
              have := ih r2 (by simp at hl ⊢; omega) p q hcs
              simp at this ⊢
              omega
        · cases hcs : consumeStr r with
          | none => rw [consumeStr.eq_def] at h; simp [hcs, hq, hb] at h
          | some pq =>
            obtain ⟨p, q⟩ := pq
            have hrq : rest = q := by
              rw [consumeStr.eq_def] at h
              simp [hcs, hq, hb] at h
              exact h.2.symm
            rw [hrq]
            have := ih r (by simp at hl ⊢; omega) p q hcs
            simp at this ⊢
            omega

theorem rjcStep_length {l : List Char} (h : l ≠ []) :
    (rjcStep l).2.length < l.length := by
  cases l with
  | nil => exact absurd rfl h
  | cons c r =>
    by_cases hq : c = '"'
    · subst hq
      cases hcs : consumeStr r with
      | none =>
        simp [rjcStep, hcs]
      | some pq =>
        obtain ⟨b, rest⟩ := pq
        have := consumeStr_length r.length r le_rfl b rest hcs
        simp [rjcStep, hcs]
        omega
    · by_cases hs : c = '/'
      · subst hs
        cases r with
        | nil => simp [rjcStep]
        | cons d r2 =>
          by_cases hd : d = '*'
          · subst hd
            cases hdb : dropBlock r2 with
            | none => simp [rjcStep, hdb]
            | some rest =>
              have := dropBlock_length r2 rest hdb
              simp [rjcStep, hdb]
              omega
          · by_cases hd2 : d = '/'
            · subst hd2
              have := dropToEol_length_le r2
              simp [rjcStep, hd]
              omega
            · simp [rjcStep, hd, hd2]
      · simp [rjcStep, hq, hs]

theorem consumeStr_clean : ∀ L rest : List Char, '"' ∉ L → '\\' ∉ L →
    consumeStr (L ++ '"' :: rest) = some (L, rest) := by
  intro L
  induction L with
  | nil =>
    intro rest h1 h2
    rw [show ([] : List Char) ++ '"' :: rest = '"' :: rest from rfl, consumeStr.eq_def]
    simp
  | cons c L ih =>
    intro rest h1 h2
    have hc1 : c ≠ '"' := fun he => h1 (he ▸ List.mem_cons_self _ _)
    have hc2 : c ≠ '\\' := fun he => h2 (he ▸ List.mem_cons_self _ _)
    have hL1 : '"' ∉ L := fun hm => h1 (List.mem_cons_of_mem _ hm)
    have hL2 : '\\' ∉ L := fun hm => h2 (List.mem_cons_of_mem _ hm)
    rw [show (c :: L) ++ '"' :: rest = c :: (L ++ '"' :: rest) from rfl, consumeStr.eq_def]
    simp [hc1, hc2, ih rest hL1 hL2]

theorem rjcAux_fuel_eq : ∀ n l f₁ f₂, l.length ≤ n → l.length ≤ f₁ → l.length ≤ f₂ →
    rjcAux f₁ l = rjcAux f₂ l := by
  intro n
  induction n with
  | zero =>
    intro l f₁ f₂ hn h1 h2
    have hl : l = [] := List.length_eq_zero.mp (by omega)
    subst hl
    cases f₁ <;> cases f₂ <;> rfl
  | succ n ih =>
    intro l f₁ f₂ hn h1 h2
    cases l with
    | nil => cases f₁ <;> cases f₂ <;> rfl
    | cons c r =>
      cases f₁ with
      | zero => simp at h1
      | succ g₁ =>
        cases f₂ with
        | zero => simp at h2
        | succ g₂ =>
          have hstep := rjcStep_length (l := c :: r) (by simp)
          show (rjcStep (c :: r)).1 ++ rjcAux g₁ (rjcStep (c :: r)).2 =
            (rjcStep (c :: r)).1 ++ rjcAux g₂ (rjcStep (c :: r)).2
          congr 1
          have hn2 : (c :: r).length ≤ n + 1 := hn
          have h12 : (c :: r).length ≤ g₁ + 1 := h1
          have h22 : (c :: r).length ≤ g₂ + 1 := h2
          exact ih _ g₁ g₂ (by omega) (by omega) (by omega)

theorem removeJsonCommentsL_string_lit {L rest : List Char} (hq : '"' ∉ L) (hb : '\\' ∉ L) :
    removeJsonCommentsL ('"' :: (L ++ '"' :: rest)) =
      '"' :: (L ++ '"' :: removeJsonCommentsL rest) := by
  have hstep : rjcStep ('"' :: (L ++ '"' :: rest)) = ('"' :: L ++ ['"'], rest) := by
    rw [rjcStep.eq_def]
    simp [consumeStr_clean L rest hq hb]
  have hmain : removeJsonCommentsL ('"' :: (L ++ '"' :: rest)) =
      ('"' :: L ++ ['"']) ++ rjcAux (L.length + rest.length + 1) rest := by
    unfold removeJsonCommentsL
    rw [show ('"' :: (L ++ '"' :: rest)).length = (L.length + rest.length + 1) + 1 from by
      simp; omega]
    show (rjcStep _).1 ++ rjcAux (L.length + rest.length + 1) (rjcStep _).2 = _
    rw [hstep]
  rw [hmain,
    rjcAux_fuel_eq (L.length + rest.length + 1) rest (L.length + rest.length + 1)
      rest.length (by omega) (by omega) le_rfl]
  show _ = '"' :: (L ++ '"' :: rjcAux rest.length rest)
  simp

/-- C6: the tolerant JSON parser attempts a strict parse first (a success is
returned untouched, with no comment stripping); only on failure does it strip
comments and trailing commas and retry, and a failing retry yields no data
(conjuncts 1–2, with the strict parser abstract).  Comment stripping never
touches the body of a string literal (conjunct 3, for any literal body free
of quotes and escapes), in particular a `//` inside a string value survives
while a real `//` comment after it is removed (conjunct 4), and trailing
commas before closers are removed (conjunct 5). -/
theorem C6_tolerant_json :
    (∀ (α : Type) (strict : String → Option α) (text : String) (v : α),
       strict text = some v → parse_json_file strict (some text) = some v) ∧
    (∀ (α : Type) (strict : String → Option α) (text : String),
       strict text = none →
       parse_json_file strict (some text) =
         strict (remove_trailing_commas (remove_json_comments text))) ∧
    (∀ L rest : List Char, '"' ∉ L → '\\' ∉ L →
       removeJsonCommentsL ('"' :: (L ++ '"' :: rest)) =
         '"' :: (L ++ '"' :: removeJsonCommentsL rest)) ∧
    remove_json_comments "\x7b\"label\": \"not // a comment\"\x7d // x" =
      "\x7b\"label\": \"not // a comment\"\x7d " ∧
    remove_trailing_commas "[1, 2, ]" = "[1, 2]" := by
  refine ⟨?_, ?_, ?_, ?_, ?_⟩
  · intro α strict text v h
    simp [parse_json_file, h]
  · intro α strict text h
    simp [parse_json_file, h]
  · intro L rest hq hb
    exact removeJsonCommentsL_string_lit hq hb
  · rfl
  · rfl

/-- C6 witness: concrete instances of the tolerant-parser theorem. -/
theorem C6_tolerant_json_witness :
    parse_json_file (fun _ : String => some (0 : Nat)) (some "x") = some 0 ∧
    parse_json_file (fun _ : String => (none : Option Nat)) (some "x") =
      (fun _ : String => (none : Option Nat))
        (remove_trailing_commas (remove_json_comments "x")) ∧
    removeJsonCommentsL ('"' :: ("ab".data ++ '"' :: "//c".data)) =
      '"' :: ("ab".data ++ '"' :: removeJsonCommentsL "//c".data) :=
  ⟨C6_tolerant_json.1 Nat (fun _ => some 0) "x" 0 rfl,
   C6_tolerant_json.2.1 Nat (fun _ => none) "x" rfl,
   C6_tolerant_json.2.2.1 "ab".data "//c".data (by decide) (by decide)⟩

/-! ### Table renderers -/

/-- Python `str.startswith`. -/
def pyStartsWith (s pre : String) : Bool :=
  s.data.take pre.data.length == pre.data

/-- `generate_html_table(headers, rows)`: empty output for an empty row set;
otherwise drop every column whose cell is empty/whitespace in all rows
(headers and cells in lockstep) and emit an inline HTML table.  Ragged rows
(shorter than `headers`) would raise in Python; they are modelled with a
default `""` cell and never arise at the call sites, which always build rows
matching the header count. -/
def generate_html_table (headers : List String) (rows : List (List String)) : String :=
  if rows.isEmpty then "" else
  let nonEmptyCols := (List.range headers.length).filter
    (fun i => rows.any (fun row => pyStrip (row.getD i "") != ""))
  let newHeaders := nonEmptyCols.map (fun i => headers.getD i "")
  let newRows := rows.map (fun row => nonEmptyCols.map (fun i => row.getD i ""))
  "<table style='border-collapse: collapse;'>" ++
    ("<tr>" ++ String.join (newHeaders.map
      (fun h => "<th style='border: 1px solid #ddd; padding:4px;'>" ++ h ++ "</th>")) ++
      "</tr>") ++
    String.join (newRows.map (fun row =>
      "<tr>" ++ String.join (row.map
        (fun cell => "<td style='border: 1px solid #ddd; padding:4px;'>" ++ cell ++ "</td>")) ++
      "</tr>")) ++
    "</table>"

/-- `generate_markdown_table(headers, rows)`: a pipe table with a separator
row of dashes; no column filtering and no empty-row guard. -/
def generate_markdown_table (headers : List String) (rows : List (List String)) : String :=
  ("| " ++ String.intercalate " | " headers ++ " |\n") ++
  ("| " ++ String.intercalate " | " (headers.map (fun _ => "---")) ++ " |\n") ++
  String.join (rows.map (fun row => "| " ++ String.intercalate " | " row ++ " |\n"))

/-- C4 (amended): only the inline HTML renderer applies the row-filtering
rule: it drops all-empty columns (headers and cells in lockstep) and returns
empty output for an empty row set; the top-level markdown renderer applies no
filtering at all — it renders every column and emits the header and separator
rows even for an empty row set.  For headers `[X, Y]` and rows
`[["","1"],["","2"]]` the HTML renderer emits only column `Y`, while the
markdown renderer emits both columns.  (The claim that both renderers share
the filtering rule is refuted by `C4_counterexample`.) -/
theorem C4_renderers_filtering :
    (∀ headers : List String, generate_html_table headers [] = "") ∧
    generate_html_table ["X", "Y"] [["", "1"], ["", "2"]] =
      generate_html_table ["Y"] [["1"], ["2"]] ∧
    generate_markdown_table ["X", "Y"] [["", "1"], ["", "2"]] =
      "| X | Y |\n| --- | --- |\n|  | 1 |\n|  | 2 |\n" ∧
    generate_markdown_table ["A"] [] = "| A |\n| --- |\n" := by
  refine ⟨fun headers => rfl, ?_, rfl, rfl⟩
  rfl

/-- C4 counterexample: the markdown renderer applied to headers `[X, Y]` and
rows `[["","1"],["","2"]]` emits both columns (the all-empty column `X`
included), not a table with only column `Y` as the claim states. -/
theorem C4_counterexample :
    generate_markdown_table ["X", "Y"] [["", "1"], ["", "2"]] =
      "| X | Y |\n| --- | --- |\n|  | 1 |\n|  | 2 |\n" ∧
    generate_markdown_table ["X", "Y"] [["", "1"], ["", "2"]] ≠
      "| Y |\n| --- |\n| 1 |\n| 2 |\n" := by
  refine ⟨rfl, ?_⟩
  decide

/-! ### `parse_dockerfile` -/

/-- The build-file record: `{"base_image": ..., "exposed_ports": ...}`. -/
structure DockerRec where
  base_image : String
  exposed_ports : String
deriving DecidableEq, Repr

/-- One iteration of the `for line in f` loop: the accumulator is
`(base_image, exposed_ports)`.  A `FROM` line with at least two tokens
overwrites `base_image` (no first-occurrence guard); an `EXPOSE` line appends
all tokens after the keyword. -/
def dockerfileStep (acc : String × List String) (line : String) : String × List String :=
  if pyStartsWith (pyUpper (pyStrip line)) "FROM" then
    if 2 ≤ (pySplit (pyStrip line)).length then ((pySplit (pyStrip line)).getD 1 "", acc.2)
    else acc
  else if pyStartsWith (pyUpper (pyStrip line)) "EXPOSE" then
    (acc.1, acc.2 ++ (pySplit (pyStrip line)).drop 1)
  else acc

/-- `parse_dockerfile(file_path)`: `lines = none` models an unreadable file
(the `except` logs and the function returns the untouched accumulator).  The
ports are joined with `', '`. -/
def parse_dockerfile (lines : Option (List String)) : DockerRec :=
  match lines with
  | none => ⟨"", ""⟩
  | some ls =>
    let r := ls.foldl dockerfileStep ("", [])
    ⟨r.1, String.intercalate ", " r.2⟩

/-! ### Lemmas about `pySplit` on a well-formed FROM line -/

theorem dropWhile_eq_self_of_head {p : Char → Bool} {l : List Char}
    (h : ∀ c, l.head? = some c → p c = false) : l.dropWhile p = l := by
  cases l with
  | nil => rfl
  | cons c r =>
    rw [List.dropWhile_cons_of_neg]
    simp [h c rfl]

theorem pyStripL_eq_self {l : List Char}
    (h1 : ∀ c, l.head? = some c → pyIsSpace c = false)
    (h2 : ∀ c, l.getLast? = some c → pyIsSpace c = false) :
    pyStripL l = l := by
  unfold pyStripL
  rw [dropWhile_eq_self_of_head h1]
  rw [dropWhile_eq_self_of_head (by
    intro c hc
    rw [List.head?_reverse] at hc
    exact h2 c hc)]
  exact List.reverse_reverse l

theorem pySplitAux_word : ∀ (w acc rest : List Char), (∀ c ∈ w, pyIsSpace c = false) →
    pySplitAux acc (w ++ rest) = pySplitAux (w.reverse ++ acc) rest := by
  intro w
  induction w with
  | nil => intro acc rest h; simp
  | cons c w ih =>
    intro acc rest h
    have hc : pyIsSpace c = false := h c (List.mem_cons_self _ _)
    show pySplitAux acc (c :: (w ++ rest)) = _
    rw [pySplitAux.eq_def]
    simp only [hc, Bool.false_eq_true, if_false]
    rw [ih (c :: acc) rest (fun d hd => h d (List.mem_cons_of_mem _ hd))]
    simp

theorem pySplitAux_space (acc rest : List Char) (h : acc.isEmpty = false) :
    pySplitAux acc (' ' :: rest) = acc.reverse :: pySplitAux [] rest := by
  rw [pySplitAux.eq_def]
  simp [show pyIsSpace ' ' = true from by decide, h]

theorem pySplitAux_nil_end (acc : List Char) (h : acc.isEmpty = false) :
    pySplitAux acc [] = [acc.reverse] := by
  rw [pySplitAux.eq_def]
  simp [h]

theorem pySplitAux_all_word (w acc : List Char) (hw : ∀ c ∈ w, pyIsSpace c = false) :
    pySplitAux acc w = pySplitAux (w.reverse ++ acc) [] := by
  have h := pySplitAux_word w acc [] hw
  simpa using h

theorem pySplit_from_line (img : String) (hne : img.data ≠ [])
    (hws : ∀ c ∈ img.data, pyIsSpace c = false) :
    pySplit ("FROM " ++ img) = ["FROM", img] := by
  unfold pySplit
  have hdata : ("FROM " ++ img).data = "FROM".data ++ (' ' :: img.data) := rfl
  rw [hdata, pySplitAux_word "FROM".data [] (' ' :: img.data) (by decide)]
  rw [pySplitAux_space _ _ (by decide)]
  rw [pySplitAux_all_word img.data [] hws]
  rw [pySplitAux_nil_end _ (by
    cases hdl : img.data with
    | nil => exact absurd hdl hne
    | cons a b => simp [hdl])]
  simp

/-- C3 (amended): the base image is the second token of the *last* `FROM` line
with at least two tokens — later `FROM` lines in multi-stage files *do*
overwrite it — and the exposed ports accumulate across `EXPOSE` lines and are
joined with a comma and a space (`', '`), not a plain space.  (The frozen
claim — first `FROM` wins, space-joined ports — is refuted by
`C3_counterexample`.) -/
theorem C3_dockerfile_parsing :
    (∀ (ls : List String) (img : String), img.data ≠ [] →
       (∀ c ∈ img.data, pyIsSpace c = false) →
       (parse_dockerfile (some (ls ++ ["FROM " ++ img]))).base_image = img) ∧
    parse_dockerfile (some ["FROM a", "EXPOSE 1 2", "FROM b", "EXPOSE 3"]) =
      ⟨"b", "1, 2, 3"⟩ := by
  refine ⟨?_, rfl⟩
  intro ls img hne hws
  have hhead : ∀ c, ("FROM " ++ img).data.head? = some c → pyIsSpace c = false := by
    intro c hc
    have h0 : ("FROM " ++ img).data.head? = some 'F' := rfl
    rw [h0] at hc
    cases hc
    rfl
  have hlast : ∀ c, ("FROM " ++ img).data.getLast? = some c → pyIsSpace c = false := by
    intro c hc
    have h0 : ("FROM " ++ img).data = "FROM ".data ++ img.data := rfl
    rw [h0, List.getLast?_append_of_ne_nil _ hne] at hc
    exact hws c (List.mem_of_mem_getLast? hc)
  have hstrip : pyStrip ("FROM " ++ img) = "FROM " ++ img := by
    show (⟨pyStripL ("FROM " ++ img).data⟩ : String) = "FROM " ++ img
    rw [pyStripL_eq_self hhead hlast]
  have hupper : pyStartsWith (pyUpper ("FROM " ++ img)) "FROM" = true := by
    unfold pyStartsWith pyUpper
    rw [show ("FROM " ++ img).data = "FROM ".data ++ img.data from rfl]
    rw [List.map_append]
    rw [show "FROM ".data.map Char.toUpper = "FROM ".data from by decide]
    rw [show ("FROM".data : List Char).length = 4 from rfl]
    rw [List.take_append_of_le_length (by decide)]
    decide
  have hsplit := pySplit_from_line img hne hws
  have hstep : ∀ acc, dockerfileStep acc ("FROM " ++ img) = (img, acc.2) := by
    intro acc
    unfold dockerfileStep
    simp [hstrip, hupper, hsplit]
  have hfold : List.foldl dockerfileStep ("", []) (ls ++ ["FROM " ++ img]) =
      (img, (List.foldl dockerfileStep ("", []) ls).2) := by
    rw [List.foldl_append]
    show dockerfileStep (List.foldl dockerfileStep ("", []) ls) ("FROM " ++ img) = _
    exact hstep _
  show (List.foldl dockerfileStep ("", []) (ls ++ ["FROM " ++ img])).1 = img
  rw [hfold]

/-- C3 witness: a concrete instance of the last-FROM-wins conjunct. -/
theorem C3_dockerfile_parsing_witness :
    (parse_dockerfile (some (["FROM a"] ++ ["FROM " ++ "b"]))).base_image = "b" ∧
    parse_dockerfile (some ["FROM a", "EXPOSE 1 2", "FROM b", "EXPOSE 3"]) =
      ⟨"b", "1, 2, 3"⟩ :=
  ⟨C3_dockerfile_parsing.1 ["FROM a"] "b" (by decide) (by decide),
   C3_dockerfile_parsing.2⟩

/-- C3 counterexample: for a two-stage build file the recorded base image is
the second token of the last `FROM` line, not the first; and the exposed
ports are joined with `", "`, not with a space. -/
theorem C3_counterexample :
    (parse_dockerfile (some ["FROM a", "FROM b"])).base_image = "b" ∧
    ("b" : String) ≠ "a" ∧
    (parse_dockerfile (some ["EXPOSE 1 2"])).exposed_ports = "1, 2" ∧
    ("1, 2" : String) ≠ "1 2" := by
  refine ⟨rfl, by decide, rfl, by decide⟩

/-! ### Dynamic values

Parsed JSON/YAML data (`json.load` / `yaml.safe_load` results) is modelled by
a dynamic value type.  Numbers are modelled as integers (no claim concerns
floats).  JSON objects parsed by the library have unique keys (later
duplicates overwrite earlier ones at parse time), so objects are association
lists with first-match lookup. -/
inductive JVal where
  | null
  | bool (b : Bool)
  | num (n : Int)
  | str (s : String)
  | arr (elems : List JVal)
  | obj (fields : List (String × JVal))

/-- Python truthiness of a parsed value (`if not data: ...`). -/
def jTruthy : JVal → Bool
  | .null => false
  | .bool b => b
  | .num n => n != 0
  | .str s => s != ""
  | .arr l => !l.isEmpty
  | .obj o => !o.isEmpty

/-- Dictionary lookup (`d[k]` / `d.get(k)`). -/
def jLookup (o : List (String × JVal)) (k : String) : Option JVal :=
  (o.find? (fun p => p.1 == k)).map (fun p => p.2)

/-- `d.get(k, default)`. -/
def jGetD (o : List (String × JVal)) (k : String) (d : JVal) : JVal :=
  (jLookup o k).getD d

/-- Python `str()` of a parsed scalar.  The program only ever stringifies
scalars (input option values); container reprs are out of modelled scope. -/
def pyStr : JVal → String
  | .null => "None"
  | .bool true => "True"
  | .bool false => "False"
  | .num n => toString n
  | .str s => s
  | .arr _ => ""
  | .obj _ => ""

/-- Python `==` between two parsed scalars (`options == default`).  Container
and cross-type numeric comparisons are out of modelled scope. -/
def pyEqScalar : JVal → JVal → Bool
  | .null, .null => true
  | .bool a, .bool b => a == b
  | .num a, .num b => a == b
  | .str a, .str b => a == b
  | _, _ => false

/-- The elements of a parsed list value; a non-list where the code iterates a
list is out of modelled scope. -/
def asArr : JVal → List JVal
  | .arr l => l
  | _ => []

/-- The string elements of a parsed list value (non-string entries would make
the Python joins raise; out of modelled scope). -/
def asStrList : JVal → List String
  | .arr l => l.filterMap (fun v => match v with | .str s => some s | _ => none)
  | _ => []

/-- A parsed list whose entries are all strings; `none` when some entry is
not a string (the Python code would raise on it). -/
def strListOf : JVal → Option (List String)
  | .arr l => l.mapM (fun v => match v with | .str s => some s | _ => none)
  | _ => none

/-- String-valued dictionary field with `""` default (`d.get(k, "")`);
non-string values are out of modelled scope. -/
def strFieldD (o : List (String × JVal)) (k : String) : String :=
  match jLookup o k with
  | some (.str s) => s
  | some _ => ""
  | none => ""

/-- Association-list lookup with `String` keys. -/
def lookupStr {α : Type} (l : List (String × α)) (k : String) : Option α :=
  (l.find? (fun p => p.1 == k)).map (fun p => p.2)

/-- Association-list lookup with a default. -/
def lookupStrD {α : Type} (l : List (String × α)) (k : String) (d : α) : α :=
  (lookupStr l k).getD d

/-- Python dict insertion: overwrite in place if the key exists, else append
(insertion order preserved). -/
def upsert {α : Type} (l : List (String × α)) (k : String) (v : α) : List (String × α) :=
  if l.any (fun p => p.1 == k) then
    l.map (fun p => if p.1 == k then (k, v) else p)
  else l ++ [(k, v)]

/-! ### `sorted(set(...))` over strings -/

/-- Lexicographic comparison of character lists by Unicode code point:
Python's `<` on strings. -/
def strLtB : List Char → List Char → Bool
  | [], [] => false
  | [], _ :: _ => true
  | _ :: _, [] => false
  | c :: cs, d :: ds =>
    if c.toNat < d.toNat then true
    else if d.toNat < c.toNat then false
    else strLtB cs ds

/-- Python string comparison `s < t`. -/
def strLt (s t : String) : Bool := strLtB s.data t.data

theorem strLtB_irrefl : ∀ l : List Char, strLtB l l = false := by
  intro l
  induction l with
  | nil => rfl
  | cons c cs ih =>
    unfold strLtB
    rw [if_neg (lt_irrefl c.toNat), if_neg (lt_irrefl c.toNat)]
    exact ih

theorem strLtB_asymm : ∀ l₁ l₂ : List Char,
    strLtB l₁ l₂ = true → strLtB l₂ l₁ = false := by
  intro l₁
  induction l₁ with
  | nil =>
    intro l₂ h
    cases l₂ with
    | nil => exact absurd h (by simp [strLtB])
    | cons d ds => rfl
  | cons c cs ih =>
    intro l₂ h
    cases l₂ with
    | nil => exact absurd h (by simp [strLtB])
    | cons d ds =>
      unfold strLtB at h ⊢
      by_cases h1 : c.toNat < d.toNat
      · rw [if_neg (Nat.lt_asymm h1), if_pos h1]
      · by_cases h2 : d.toNat < c.toNat
        · rw [if_neg h1, if_pos h2] at h
          exact absurd h (by simp)
        · rw [if_neg h1, if_neg h2] at h
          rw [if_neg h2, if_neg h1]
          exact ih ds h

theorem strLtB_trans : ∀ l₁ l₂ l₃ : List Char,
    strLtB l₁ l₂ = true → strLtB l₂ l₃ = true → strLtB l₁ l₃ = true := by
  intro l₁
  induction l₁ with
  | nil =>
    intro l₂ l₃ h12 h23
    cases l₂ with
    | nil => exact h23
    | cons d ds =>
      cases l₃ with
      | nil => exact absurd h23 (by simp [strLtB])
      | cons e es => rfl
  | cons c cs ih =>
    intro l₂ l₃ h12 h23
    cases l₂ with
    | nil => exact absurd h12 (by simp [strLtB])
    | cons d ds =>
      cases l₃ with
      | nil => exact absurd h23 (by simp [strLtB])
      | cons e es =>
        unfold strLtB at h12 h23 ⊢
        by_cases hcd : c.toNat < d.toNat
        · by_cases hde : d.toNat < e.toNat
          · rw [if_pos (Nat.lt_trans hcd hde)]
          · by_cases hed : e.toNat < d.toNat
            · rw [if_neg hde, if_pos hed] at h23
              exact absurd h23 (by simp)
            · have hde2 : d.toNat = e.toNat := Nat.le_antisymm
                (Nat.le_of_not_lt hed) (Nat.le_of_not_lt hde)
              rw [if_pos (hde2 ▸ hcd)]
        · by_cases hdc : d.toNat < c.toNat
          · rw [if_neg hcd, if_pos hdc] at h12
            exact absurd h12 (by simp)
          · have hcd2 : c.toNat = d.toNat := Nat.le_antisymm
              (Nat.le_of_not_lt hdc) (Nat.le_of_not_lt hcd)
            rw [if_neg hcd, if_neg hdc] at h12
            by_cases hde : d.toNat < e.toNat
            · rw [if_pos (hcd2 ▸ hde)]
            · by_cases hed : e.toNat < d.toNat
              · rw [if_neg hde, if_pos hed] at h23
                exact absurd h23 (by simp)
              · rw [if_neg hde, if_neg hed] at h23
                rw [if_neg (hcd2 ▸ hde), if_neg (hcd2 ▸ hed)]
                exact ih ds es h12 h23

theorem strLtB_eq_of_not : ∀ l₁ l₂ : List Char,
    strLtB l₁ l₂ = false → strLtB l₂ l₁ = false → l₁ = l₂ := by
  intro l₁
  induction l₁ with
  | nil =>
    intro l₂ h12 _
    cases l₂ with
    | nil => rfl
    | cons d ds => exact absurd h12 (by simp [strLtB])
  | cons c cs ih =>
    intro l₂ h12 h21
    cases l₂ with
    | nil => exact absurd h21 (by simp [strLtB])
    | cons d ds =>
      unfold strLtB at h12 h21
      by_cases hcd : c.toNat < d.toNat
      · rw [if_pos hcd] at h12
        exact absurd h12 (by simp)
      · by_cases hdc : d.toNat < c.toNat
        · rw [if_pos hdc] at h21
          exact absurd h21 (by simp)
        · have hcd2 : c = d := Char.ext (UInt32.ext (Nat.le_antisymm
            (Nat.le_of_not_lt hdc) (Nat.le_of_not_lt hcd)))
          rw [if_neg hcd, if_neg hdc] at h12
          rw [if_neg hdc, if_neg hcd] at h21
          rw [hcd2, ih ds h12 h21]

theorem strLt_irrefl (s : String) : strLt s s = false := strLtB_irrefl s.data

theorem strLt_asymm {s t : String} (h : strLt s t = true) : strLt t s = false :=
  strLtB_asymm _ _ h

theorem strLt_trans {s t u : String} (h1 : strLt s t = true)
    (h2 : strLt t u = true) : strLt s u = true :=
  strLtB_trans _ _ _ h1 h2

theorem strLt_total {s t : String} (h1 : strLt s t = false) (h2 : s ≠ t) :
    strLt t s = true := by
  cases h3 : strLt t s
  · exact absurd (by
      cases s with
      | mk ds =>
        cases t with
        | mk dt => exact congrArg String.mk (strLtB_eq_of_not ds dt h1 h3)) h2
  · rfl

/-- Insert into a strictly sorted list, skipping duplicates. -/
def insertSorted (x : String) : List String → List String
  | [] => [x]
  | y :: ys =>
    if strLt x y then x :: y :: ys
    else if x = y then y :: ys
    else y :: insertSorted x ys

/-- Python `sorted(set(l))`: the strictly sorted list of the distinct
elements (lexicographic code-point order, as in Python). -/
def sortedDedup (l : List String) : List String :=
  l.foldr insertSorted []

theorem mem_insertSorted {a x : String} : ∀ l : List String,
    a ∈ insertSorted x l ↔ a = x ∨ a ∈ l := by
  intro l
  induction l with
  | nil => simp [insertSorted]
  | cons y ys ih =>
    unfold insertSorted
    by_cases h1 : strLt x y = true
    · simp [h1]
    · by_cases h2 : x = y
      · subst h2
        simp [h1, List.mem_cons]
      · simp [h1, h2, List.mem_cons, ih]
        tauto

theorem sorted_insertSorted {x : String} : ∀ l : List String,
    List.Sorted (fun a b => strLt a b = true) l →
    List.Sorted (fun a b => strLt a b = true) (insertSorted x l) := by
  intro l
  induction l with
  | nil => intro _; simp [insertSorted]
  | cons y ys ih =>
    intro hs
    rw [List.sorted_cons] at hs
    obtain ⟨hy, hys⟩ := hs
    unfold insertSorted
    by_cases h1 : strLt x y = true
    · rw [if_pos h1, List.sorted_cons]
      refine ⟨?_, List.sorted_cons.mpr ⟨hy, hys⟩⟩
      intro b hb
      rcases List.mem_cons.mp hb with hb | hb
      · rw [hb]
        exact h1
      · exact strLt_trans h1 (hy b hb)
    · by_cases h2 : x = y
      · rw [if_neg h1, if_pos h2]
        exact List.sorted_cons.mpr ⟨hy, hys⟩
      · rw [if_neg h1, if_neg h2, List.sorted_cons]
        refine ⟨?_, ih hys⟩
        intro b hb
        rcases (mem_insertSorted ys).mp hb with hb | hb
        · rw [hb]
          exact strLt_total (by simpa using h1) h2
        · exact hy b hb

theorem mem_sortedDedup {a : String} : ∀ l : List String,
    a ∈ sortedDedup l ↔ a ∈ l := by
  intro l
  induction l with
  | nil => simp [sortedDedup]
  | cons x xs ih =>
    show a ∈ insertSorted x (sortedDedup xs) ↔ _
    rw [mem_insertSorted, ih]
    simp

theorem sorted_sortedDedup : ∀ l : List String,
    List.Sorted (fun a b => strLt a b = true) (sortedDedup l) := by
  intro l
  induction l with
  | nil => simp [sortedDedup]
  | cons x xs ih => exact sorted_insertSorted _ ih

theorem sorted_eq_of_mem_iff : ∀ l₁ l₂ : List String,
    List.Sorted (fun a b => strLt a b = true) l₁ →
    List.Sorted (fun a b => strLt a b = true) l₂ →
    (∀ a, a ∈ l₁ ↔ a ∈ l₂) → l₁ = l₂ := by
  intro l₁
  induction l₁ with
  | nil =>
    intro l₂ _ _ h
    cases l₂ with
    | nil => rfl
    | cons y ys => exact absurd ((h y).mpr (List.mem_cons_self _ _)) (by simp)
  | cons x xs ih =>
    intro l₂ hs1 hs2 h
    cases l₂ with
    | nil => exact absurd ((h x).mp (List.mem_cons_self _ _)) (by simp)
    | cons y ys =>
      rw [List.sorted_cons] at hs1 hs2
      obtain ⟨hx, hxs⟩ := hs1
      obtain ⟨hy, hys⟩ := hs2
      have hxy : x = y := by
        rcases List.mem_cons.mp ((h x).mp (List.mem_cons_self _ _)) with h1 | h1
        · exact h1
        · rcases List.mem_cons.mp ((h y).mpr (List.mem_cons_self _ _)) with h2 | h2
          · exact h2.symm
          · exact absurd (strLt_trans (hy x h1) (hx y h2))
              (by simp [strLt_irrefl])
      subst hxy
      congr 1
      refine ih ys hxs hys ?_
      intro a
      constructor
      · intro ha
        rcases List.mem_cons.mp ((h a).mp (List.mem_cons_of_mem _ ha)) with h1 | h1
        · exact absurd (h1 ▸ hx a ha) (by simp [strLt_irrefl])
        · exact h1
      · intro ha
        rcases List.mem_cons.mp ((h a).mpr (List.mem_cons_of_mem _ ha)) with h1 | h1
        · exact absurd (h1 ▸ hy a ha) (by simp [strLt_irrefl])
        · exact h1

theorem sortedDedup_ext {l₁ l₂ : List String} (h : ∀ a, a ∈ l₁ ↔ a ∈ l₂) :
    sortedDedup l₁ = sortedDedup l₂ :=
  sorted_eq_of_mem_iff _ _ (sorted_sortedDedup l₁) (sorted_sortedDedup l₂)
    (fun a => by rw [mem_sortedDedup, mem_sortedDedup]; exact h a)

/-! ### `extract_all_input_ids` -/

/-- `re.findall(r"\$\{input:([^}]+)\}", s)`: scan left to right; at each
position, if the literal `${input:` occurs, capture the (nonempty) run of
non-`}` characters up to the next `}` and resume after it; otherwise (no
closing brace, or an empty capture) advance one character. -/
def scanInputIdsAux : Nat → List Char → List String
  | 0, _ => []
  | _ + 1, [] => []
  | fuel + 1, c :: r =>
    if (c :: r).take 8 = "$\x7binput:".data then
      match ((c :: r).drop 8).span (fun d => d != '\x7d') with
      | (body, _ :: rest2) =>
        if body.isEmpty then scanInputIdsAux fuel r
        else (⟨body⟩ : String) :: scanInputIdsAux fuel rest2
      | (_, []) => scanInputIdsAux fuel r
    else scanInputIdsAux fuel r

/-- The `${input:...}` identifiers referenced in a string, in scan order. -/
def scanInputIds (l : List Char) : List String :=
  scanInputIdsAux l.length l

mutual

/-- `extract_all_input_ids(obj)`: recursively collect every identifier
referenced as `${input:...}` in any string anywhere in the record.  Python
accumulates a set; we return the occurrences in traversal order and the
consumer (`sorted(...)` in `format_inputs_table`) sorts and deduplicates. -/
def extract_all_input_ids : JVal → List String
  | .str s => scanInputIds s.data
  | .arr l => extractIdsList l
  | .obj o => extractIdsObj o
  | _ => []

def extractIdsList : List JVal → List String
  | [] => []
  | v :: vs => extract_all_input_ids v ++ extractIdsList vs

def extractIdsObj : List (String × JVal) → List String
  | [] => []
  | p :: ps => extract_all_input_ids p.2 ++ extractIdsObj ps

end

/-! ### Formatting helpers -/

/-- `format_devcontainer_extensions(extensions_list)`. -/
def format_devcontainer_extensions (extensions_list : List String) : String :=
  if extensions_list.isEmpty then "" else
  generate_html_table ["Name", "Store Link"]
    (((extensions_list.map pyStrip).filter (fun e => e != "")).map (fun e =>
      [e, "<a href=\"https://marketplace.visualstudio.com/items?itemName=" ++ e ++
        "\" target=\"_blank\">" ++ e ++ "</a>"]))

/-- The `description` cell of an input definition:
`inp.get("description", "").strip()` (non-string descriptions would raise in
Python; out of modelled scope). -/
def descOf (inp : List (String × JVal)) : String :=
  pyStrip (match jLookup inp "description" with
    | some (.str s) => s
    | _ => "")

/-- `default not in [None, ""]`: only an absent key, an explicit `null`, and
the empty string fail this test. -/
def notNoneEmpty : Option JVal → Bool
  | none => false
  | some .null => false
  | some (.str "") => false
  | some _ => true

/-- The `options_str` computation of `format_inputs_table` (lines 140–154):
a truthy list of options is rendered as backtick-quoted entries with a `✓`
after the one equal (as `str()`) to a truthy default; a truthy scalar option
is a single backtick-quoted entry with the `✓` inside the backticks. -/
def optionsStr (inp : List (String × JVal)) : String :=
  let default := jLookup inp "default"
  match jLookup inp "options" with
  | none => ""
  | some v =>
    if !jTruthy v then "" else
    match v with
    | .arr opts =>
      " ".intercalate (opts.map (fun o =>
        if notNoneEmpty default && (pyStr o == pyStr (default.getD .null)) then
          "`" ++ pyStr o ++ "`✓"
        else "`" ++ pyStr o ++ "`"))
    | other =>
      if notNoneEmpty default && pyEqScalar other (default.getD .null) then
        "`" ++ pyStr other ++ "✓`"
      else "`" ++ pyStr other ++ "`"

/-- The `rows` list built by `format_inputs_table`: one row per distinct
referenced identifier in sorted order (`for input_id in sorted(input_ids)`,
where `input_ids` is a set); an identifier with no matching definition
yields a row with empty description and options cells. -/
def formatInputsRows (input_ids : List String)
    (input_definitions : List (String × List (String × JVal))) : List (List String) :=
  (sortedDedup input_ids).map (fun id =>
    match lookupStr input_definitions id with
    | some inp => [id, descOf inp, optionsStr inp]
    | none => [id, "", ""])

/-- `format_inputs_table(input_ids, input_definitions)`. -/
def format_inputs_table (input_ids : List String)
    (input_definitions : List (String × List (String × JVal))) : String :=
  let rows := formatInputsRows input_ids input_definitions
  if rows.isEmpty then ""
  else generate_html_table ["Name", "Description", "Options"] rows

/-- `vol.split(":")` (all occurrences, empties kept). -/
def splitOnAux (sep : Char) : List Char → List Char → List (List Char)
  | acc, [] => [acc.reverse]
  | acc, c :: r =>
    if c = sep then acc.reverse :: splitOnAux sep [] r
    else splitOnAux sep (c :: acc) r

/-- Python `s.split(sep)` for a one-character separator. -/
def pySplitOn (s : String) (sep : Char) : List String :=
  (splitOnAux sep [] s.data).map (fun w => ⟨w⟩)

/-- `format_volumes_table(volumes_list)`. -/
def format_volumes_table (volumes_list : List String) : String :=
  let rows := volumes_list.map (fun vol =>
    let parts := pySplitOn vol ':'
    let host := parts.getD 0 ""
    [if host = "." then "(Project directory)" else host,
      parts.getD 1 "", parts.getD 2 ""])
  if rows.isEmpty then "" else generate_html_table ["Host", "Container", "Mode"] rows

/-- `format_env_table(env_filtered)`: one row per key, sorted; keys of a dict
are distinct, so `sorted(keys)` coincides with `sortedDedup`. -/
def format_env_table (env_keys : List String) : String :=
  let rows := (sortedDedup env_keys).map (fun key => ["`$" ++ key ++ "`"])
  if rows.isEmpty then "" else generate_html_table ["Host ENV variable"] rows

/-! ### Per-format extractors -/

/-- One entry of `tasks_info`. -/
structure TaskInfo where
  label : String
  detail : String
  command : String
  inputs : String
deriving DecidableEq, Repr

/-- One entry of `launch_info`. -/
structure LaunchInfo where
  name : String
  type_ : String
  inputs : String
deriving DecidableEq, Repr

/-- `{inp.get("id"): inp for inp in inputs_list if "id" in inp}` — entries
without an `"id"` key are skipped; duplicate ids overwrite (dict semantics);
non-dict entries and non-string ids are out of modelled scope. -/
def inputDefsOf (inputs_list : List JVal) :
    List (String × List (String × JVal)) :=
  inputs_list.foldl (fun acc v =>
    match v with
    | .obj o =>
      match jLookup o "id" with
      | some (.str s) => upsert acc s o
      | some _ => acc
      | none => acc
    | _ => acc) []

/-- The body of the `for task in tasks` loop of `parse_vscode_tasks`. -/
def taskEntry (input_definitions : List (String × List (String × JVal)))
    (task : JVal) : TaskInfo :=
  match task with
  | .obj o =>
    let label := strFieldD o "label"
    let detail := strFieldD o "detail"
    let command0 := strFieldD o "command"
    let command := if command0 != "" then "`" ++ pyBasename command0 ++ "`" else command0
    let input_ids := extract_all_input_ids task
    { label := label, detail := detail, command := command,
      inputs := if !input_ids.isEmpty then format_inputs_table input_ids input_definitions
        else "" }
  | _ => ⟨"", "", "", ""⟩

/-- `parse_vscode_tasks(file_path)` after `parse_json_file`: falsy data gives
an empty record list; a dict contributes its `tasks` (with `inputs`
definitions); a bare list is the task list itself; other truthy shapes are
out of modelled scope (the Python loop would raise on their elements). -/
def parse_vscode_tasks (data : Option JVal) : List TaskInfo :=
  match data with
  | none => []
  | some d =>
    if !jTruthy d then [] else
    match d with
    | .obj o =>
      taskEntry (inputDefsOf (asArr (jGetD o "inputs" (.arr [])))) <$>
        asArr (jGetD o "tasks" (.arr []))
    | .arr l => taskEntry [] <$> l
    | _ => []

/-- The body of the `for config in configurations` loop of
`parse_vscode_launch`. -/
def launchEntry (input_definitions : List (String × List (String × JVal)))
    (config : JVal) : LaunchInfo :=
  match config with
  | .obj o =>
    let input_ids := extract_all_input_ids config
    { name := strFieldD o "name", type_ := strFieldD o "type",
      inputs := if !input_ids.isEmpty then format_inputs_table input_ids input_definitions
        else "" }
  | _ => ⟨"", "", ""⟩

/-- `parse_vscode_launch(file_path)` after `parse_json_file`. -/
def parse_vscode_launch (data : Option JVal) : List LaunchInfo :=
  match data with
  | none => []
  | some d =>
    if !jTruthy d then [] else
    match d with
    | .obj o =>
      launchEntry (inputDefsOf (asArr (jGetD o "inputs" (.arr [])))) <$>
        asArr (jGetD o "configurations" (.arr []))
    | .arr l => launchEntry [] <$> l
    | _ => []

/-- `list(dict.fromkeys(extensions))`: deduplicate preserving first-seen
order. -/
def dedupKeepFirst (l : List String) : List String :=
  l.foldl (fun acc s => if acc.contains s then acc else acc ++ [s]) []

/-- `parse_devcontainer(file_path)` after `parse_json_file`; `relPath` is the
precomputed `os.path.relpath(file_path, os.getcwd())`.  Falsy data yields the
empty record (`{}`).  The `extensions` variable is *bound* only inside
`isinstance` checks: when `customizations` (default `{}`) is a mapping and
its `vscode` value (default `{}`) is a mapping, `extensions` gets
`vscode.get("extensions", [])`; otherwise the variable is left unbound and
line 268 (`list(dict.fromkeys(extensions))`) raises `NameError`, modelled as
`.error ()`.  A truthy non-mapping document or a non-string-list extensions
value would also raise (modelled as `.error ()`). -/
def parse_devcontainer (data : Option JVal) (relPath : String) :
    Except Unit (List (String × String)) :=
  match data with
  | none => .ok []
  | some d =>
    if !jTruthy d then .ok [] else
    match d with
    | .obj o =>
      let customizations := jGetD o "customizations" (.obj [])
      let ext? : Option JVal :=
        match customizations with
        | .obj co =>
          match jGetD co "vscode" (.obj []) with
          | .obj vo => some (jGetD vo "extensions" (.arr []))
          | _ => none
        | _ => none
      match ext? with
      | none => .error ()
      | some extv =>
        match strListOf extv with
        | some exts =>
          .ok [("extensions", format_devcontainer_extensions (dedupKeepFirst exts)),
            ("file", relPath)]
        | none => .error ()
    | _ => .error ()

/-- One service row of the compose record. -/
structure SvcRow where
  service : String
  image : String
  ports : String
  volumes : String
  environment : String
  build : Option JVal

/-- `s.split('=', 1)`: the text before the first `=` and the text after it. -/
def splitEq (l : List Char) : List Char × List Char :=
  (l.takeWhile (fun c => c ≠ '='), (l.dropWhile (fun c => c ≠ '=')).drop 1)

/-- The body of the `for service_name, service in data["services"].items()`
loop of `parse_docker_compose`.  `environment` may be a mapping or a list of
`KEY=VALUE` strings (entries without `=`, and non-string entries, contribute
nothing / are out of modelled scope); it is filtered to string values
containing the `${` substitution marker. -/
def composeService (name : String) (svc : JVal) : SvcRow :=
  match svc with
  | .obj so =>
    let image := match jLookup so "image" with
      | some (.str s) => s
      | some v => pyStr v
      | none => "(custom)"
    let ports := asStrList (jGetD so "ports" (.arr []))
    let env_pairs : List (String × JVal) :=
      match jGetD so "environment" (.obj []) with
      | .arr items =>
        items.foldl (fun acc it =>
          match it with
          | .str s =>
            if s.data.contains '=' then
              upsert acc ⟨(splitEq s.data).1⟩ (.str ⟨(splitEq s.data).2⟩)
            else acc
          | _ => acc) []
      | .obj eo => eo
      | _ => []
    let env_filtered := env_pairs.filter (fun p =>
      match p.2 with
      | .str v => isSubstrB "$\x7b".data v.data
      | _ => false)
    { service := name,
      image := image,
      ports := if ports.isEmpty then "" else String.intercalate ", " ports,
      volumes := format_volumes_table (asStrList (jGetD so "volumes" (.arr []))),
      environment := format_env_table (env_filtered.map (fun p => p.1)),
      build := jLookup so "build" }
  | _ => ⟨name, "", "", "", "", none⟩

/-- `parse_docker_compose(file_path)` after `parse_yaml_file`: falsy data or
a missing `services` key yields the empty service list (the record
`{"services": []}`); otherwise one row per declared service in order. -/
def parse_docker_compose (data : Option JVal) : List SvcRow :=
  match data with
  | none => []
  | some d =>
    if !jTruthy d then [] else
    match d with
    | .obj o =>
      match jLookup o "services" with
      | none => []
      | some (.obj svcs) => svcs.map (fun p => composeService p.1 p.2)
      | some _ => []
    | _ => []

/-! ### The orchestrator's markdown assembly (`main`, lines 404–475) -/

/-- The compose record handed to the assembly: the parsed service rows plus
the `file` key that `main` adds. -/
structure ComposeInfo where
  services : List SvcRow
  file : String

/-- The `md_content` string assembled by `main` from the extraction results.
`compose_data` is a Python dict that always carries the two keys `services`
and `file`, so the `if compose_data:` guard is always true and the Docker
Compose section is emitted unconditionally; every other section is guarded by
the nonemptiness of its data list.  In the unified summary,
`len(compose_data)` is the number of keys of that dict, which is always 2. -/
def mdContent (compose_data : ComposeInfo) (tasks_data : List TaskInfo)
    (launch_data : List LaunchInfo) (devcontainer_data : List (List (String × String)))
    (dockerfile_data : List (String × DockerRec)) (unified : Bool) : String :=
  let md := ""
  let md := md ++ "## Docker Compose Configurations\n" ++
    generate_markdown_table ["Service", "Image", "Ports", "Volumes", "Injected ENV variables"]
      (compose_data.services.map (fun svc =>
        [svc.service, svc.image, svc.ports, svc.volumes, svc.environment])) ++ "\n\n"
  let md := if !tasks_data.isEmpty then
      md ++ "## VS Code Tasks\n" ++
        generate_markdown_table ["Name", "Description", "Command", "Inputs"]
          (tasks_data.map (fun t => [t.label, t.detail, t.command, t.inputs])) ++ "\n\n"
    else md
  let md := if !launch_data.isEmpty then
      md ++ "## VS Code Launch Configurations\n" ++
        generate_markdown_table ["Name", "Type", "Inputs"]
          (launch_data.map (fun c => [c.name, c.type_, c.inputs])) ++ "\n\n"
    else md
  let md := if !devcontainer_data.isEmpty then
      md ++ "## Devcontainer Configurations\n" ++
        generate_markdown_table ["Extensions"]
          (devcontainer_data.map (fun dev => [lookupStrD dev "extensions" ""])) ++ "\n\n"
    else md
  let md := if !dockerfile_data.isEmpty then
      md ++ "## Dockerfiles\n" ++
        generate_markdown_table ["File", "Base Image", "Exposed Ports"]
          (dockerfile_data.map (fun df => [df.1, df.2.base_image, df.2.exposed_ports])) ++ "\n\n"
    else md
  let md := if unified then
      md ++ "## Unified Configuration Summary\n" ++
        generate_markdown_table ["Config Type", "Details"]
          [["VS Code Tasks", toString tasks_data.length ++ " tasks found"],
           ["VS Code Launch", toString launch_data.length ++ " launch configurations found"],
           ["Devcontainer", toString devcontainer_data.length ++ " devcontainer configs found"],
           ["Dockerfiles", toString dockerfile_data.length ++ " Dockerfiles found"],
           ["Docker Compose", toString (2 : Nat) ++ " docker-compose files found"]] ++ "\n\n"
    else md
  md

/-- C2 (code bug): for a root with no recognized configuration files and no
readable docker-compose.yml, every extractor result is empty, yet the
generated markdown content handed to the patcher is *not* the empty string:
`if compose_data:` tests a dict that always holds the keys `services` and
`file`, so the Docker Compose section header and an empty table (header and
separator rows) are always emitted, and the patched document's markers wrap
that nonempty text rather than nothing.  (The markdown renderer emits header
and separator rows even for an empty row set — see `C4_renderers_filtering`.) -/
theorem C2_no_config_root_nonempty :
    (∀ f : String, mdContent ⟨[], f⟩ [] [] [] [] false =
      "## Docker Compose Configurations\n| Service | Image | Ports | Volumes | Injected ENV variables |\n| --- | --- | --- | --- | --- |\n\n\n") ∧
    mdContent ⟨[], "docker-compose.yml"⟩ [] [] [] [] false ≠ "" ∧
    update_readme_table (mdContent ⟨[], "docker-compose.yml"⟩ [] [] [] [] false).data none =
      some (wrappedOf (mdContent ⟨[], "docker-compose.yml"⟩ [] [] [] [] false).data) := by
  refine ⟨fun f => rfl, by decide, rfl⟩

/-- C7: every extractor degrades gracefully.  A missing/unreadable file
(`none`) or an unparseable one (strict parse and cleaned retry both fail, or
the YAML load fails — the parse results are then `none`) yields an empty
record set from every extractor, which returns normally rather than raising;
likewise for a parseable but falsy document. -/
theorem C7_graceful_degradation :
    (∀ (α : Type) (strict : String → Option α), parse_json_file strict none = none) ∧
    (∀ (α : Type) (strict : String → Option α) (text : String),
       strict text = none →
       strict (remove_trailing_commas (remove_json_comments text)) = none →
       parse_json_file strict (some text) = none) ∧
    (∀ (α : Type) (yamlLoad : String → Option α), parse_yaml_file yamlLoad none = none) ∧
    parse_vscode_tasks none = [] ∧
    parse_vscode_launch none = [] ∧
    (∀ relPath : String, parse_devcontainer none relPath = .ok []) ∧
    parse_dockerfile none = ⟨"", ""⟩ ∧
    parse_docker_compose none = [] ∧
    (∀ v : JVal, jTruthy v = false →
       parse_vscode_tasks (some v) = [] ∧
       parse_vscode_launch (some v) = [] ∧
       (∀ relPath : String, parse_devcontainer (some v) relPath = .ok []) ∧
       parse_docker_compose (some v) = []) := by
  refine ⟨fun α strict => rfl, ?_, fun α y => rfl, rfl, rfl, fun r => rfl, rfl, rfl, ?_⟩
  · intro α strict text h1 h2
    simp [parse_json_file, h1, h2]
  · intro v hv
    refine ⟨?_, ?_, fun relPath => ?_, ?_⟩
    · simp [parse_vscode_tasks, hv]
    · simp [parse_vscode_launch, hv]
    · simp [parse_devcontainer, hv]
    · simp [parse_docker_compose, hv]

/-- C7 witness: concrete instances with an always-failing strict parser and a
falsy (empty-object) document. -/
theorem C7_graceful_degradation_witness :
    parse_json_file (fun _ : String => (none : Option Nat)) (some "x") = none ∧
    parse_vscode_tasks (some (.obj [])) = [] ∧
    parse_devcontainer (some (.obj [])) "p" = .ok [] :=
  ⟨C7_graceful_degradation.2.1 Nat (fun _ => none) "x" rfl rfl,
   (C7_graceful_degradation.2.2.2.2.2.2.2.2 (.obj []) rfl).1,
   (C7_graceful_degradation.2.2.2.2.2.2.2.2 (.obj []) rfl).2.2.1 "p"⟩

/-- C9 (amended): when an ancestor key of `customizations.vscode.extensions`
is *absent*, the `.get` defaults (`{}`, `{}`, `[]`) keep the `extensions`
variable bound and the extractor returns a record with an empty extensions
rendering — it does not leave the variable unbound.  The variable is left
unbound (a `NameError` at its use, modelled `.error ()`) exactly when an
ancestor key is *present* but holds a non-mapping value, so that an
`isinstance` guard fails.  (The claim that an absent ancestor leaves the
variable unbound is refuted by `C9_counterexample`.) -/
theorem C9_devcontainer_extensions_path :
    (∀ (o : List (String × JVal)) (relPath : String),
       jLookup o "customizations" = none → jTruthy (.obj o) = true →
       parse_devcontainer (some (.obj o)) relPath =
         .ok [("extensions", ""), ("file", relPath)]) ∧
    parse_devcontainer (some (.obj [("customizations", .arr [.str "x"])])) "p" =
      .error () ∧
    parse_devcontainer (some (.obj [("customizations", .obj [("vscode", .str "y")])])) "p" =
      .error () := by
  refine ⟨?_, rfl, rfl⟩
  intro o relPath h1 h2
  have hc : jGetD o "customizations" (.obj []) = .obj [] := by
    unfold jGetD
    rw [h1]
    rfl
  simp only [parse_devcontainer]
  rw [h2, hc]
  rfl

/-- C9 witness: a concrete document with no `customizations` key — the
extractor returns a record with an empty extensions rendering. -/
theorem C9_devcontainer_extensions_path_witness :
    parse_devcontainer (some (.obj [("name", .str "x")])) "p" =
      .ok [("extensions", ""), ("file", "p")] :=
  C9_devcontainer_extensions_path.1 [("name", .str "x")] "p" rfl rfl

/-- C9 counterexample: for a parsed devcontainer document in which every
ancestor key of `customizations.vscode.extensions` is absent, the extractor
returns normally with the extensions field rendered empty — the `extensions`
variable is bound to the default `[]`, not left unbound (which would be the
`.error ()` outcome in this embedding). -/
theorem C9_counterexample :
    parse_devcontainer (some (.obj [("os", .str "linux")])) "q" =
      .ok [("extensions", ""), ("file", "q")] ∧
    (Except.ok [("extensions", ""), ("file", "q")] :
      Except Unit (List (String × String))) ≠ .error () := by
  exact ⟨rfl, fun h => Except.noConfusion h⟩

/-- C10: in the rendered inputs sub-table, rows are keyed by the distinct
referenced identifiers in lexicographically sorted order, independent of the
order of reference or definition (conjuncts 1 and 3); an identifier with no
matching input definition still yields a row with the identifier and empty
description/options cells (conjunct 2); and a full `parse_vscode_tasks` run
on a task referencing `b` then `a`, with only `a` defined, renders the
sub-table rows in order `a`, `b` with the unmatched row's cells empty
(conjunct 4). -/
theorem C10_inputs_sorted_and_unmatched :
    (∀ (ids₁ ids₂ : List String) (defs : List (String × List (String × JVal))),
       (∀ a, a ∈ ids₁ ↔ a ∈ ids₂) →
       format_inputs_table ids₁ defs = format_inputs_table ids₂ defs) ∧
    (∀ (ids : List String) (defs : List (String × List (String × JVal))) (id : String),
       id ∈ ids → lookupStr defs id = none → [id, "", ""] ∈ formatInputsRows ids defs) ∧
    (∀ (ids : List String) (defs : List (String × List (String × JVal))),
       List.Sorted (fun a b => strLt a b = true)
         ((formatInputsRows ids defs).map (fun r => r.headD ""))) ∧
    parse_vscode_tasks (some (.obj
      [("inputs", .arr [.obj [("id", .str "a"), ("description", .str "A desc")]]),
       ("tasks", .arr [.obj [("label", .str "build"),
         ("command", .str "x $\x7binput:b\x7d $\x7binput:a\x7d")]])])) =
      [⟨"build", "", "`x $\x7binput:b\x7d $\x7binput:a\x7d`",
        generate_html_table ["Name", "Description", "Options"]
          [["a", "A desc", ""], ["b", "", ""]]⟩] := by
  refine ⟨?_, ?_, ?_, rfl⟩
  · intro ids₁ ids₂ defs h
    unfold format_inputs_table formatInputsRows
    rw [sortedDedup_ext h]
  · intro ids defs id hid hlook
    unfold formatInputsRows
    refine List.mem_map.mpr ⟨id, (mem_sortedDedup ids).mpr hid, ?_⟩
    rw [hlook]
  · intro ids defs
    unfold formatInputsRows
    rw [List.map_map]
    have hcomp : ((fun r => r.headD "") ∘ fun id =>
        match lookupStr defs id with
        | some inp => [id, descOf inp, optionsStr inp]
        | none => [id, "", ""]) = id := by
      funext s
      cases h : lookupStr defs s <;> simp [h, Function.comp]
    rw [hcomp, List.map_id]
    exact sorted_sortedDedup ids

/-- C10 witness: concrete instances of the order-invariance and
unmatched-identifier conjuncts. -/
theorem C10_inputs_sorted_and_unmatched_witness :
    format_inputs_table ["b", "a", "b"] [] = format_inputs_table ["a", "b"] [] ∧
    ["z", "", ""] ∈ formatInputsRows ["z"] [] :=
  ⟨C10_inputs_sorted_and_unmatched.1 ["b", "a", "b"] ["a", "b"] []
      (fun a => by simp [List.mem_cons]; tauto),
   C10_inputs_sorted_and_unmatched.2.1 ["z"] [] "z" (by simp) rfl⟩

/-! ### Path discovery: `walk_with_gitignore` / `find_files` -/

/-- A file-system entry: a file, or a directory carrying its optional local
`.gitignore` matcher (`none` models "no `.gitignore`, unreadable, or empty
pattern list", in which case `local_spec` stays `None`) and its children.
A pathspec object is abstracted as its `match_file` predicate. -/
inductive FSEntry where
  | file (name : String)
  | dir (name : String) (ignore : Option (String → Bool)) (children : List FSEntry)

/-- Bare name of an entry. -/
def nameOf : FSEntry → String
  | .file n => n
  | .dir n _ _ => n

/-- The `files` component of an `os.walk` triple: names of the file
children. -/
def filesOf : List FSEntry → List String
  | [] => []
  | .file n :: rest => n :: filesOf rest
  | .dir _ _ _ :: rest => filesOf rest

/-- `global_spec and rel_root != "." and global_spec.match_file(rel_root)`:
the empty relative path stands for `"."` (the scanned root itself). -/
def gMatches (g : Option (String → Bool)) (rel : String) : Bool :=
  match g with
  | none => false
  | some m => if rel = "" then false else m rel

/-- `local_spec.match_file(name)` with `local_spec` possibly `None`. -/
def igMatches (ig : Option (String → Bool)) (n : String) : Bool :=
  match ig with
  | none => false
  | some m => m n

/-- `os.path.relpath` of a child named `n` of the directory at relative
path `rel` (empty = the root itself). -/
def joinRel (rel n : String) : String :=
  if rel = "" then n else rel ++ "/" ++ n

mutual

/-- The triples yielded when `os.walk` (top-down, with in-place `dirs`
pruning) reaches child entry `e` of the directory at `root` / `rel`: a
file child yields nothing by itself (it is collected in its parent's
triple); a directory child is visited — unless the global spec matches its
relative path, in which case `dirs[:] = []; files[:] = []; continue`
suppresses its triple and all descent — yielding `(its path, its file
children filtered by its own local spec)` followed by the visits of its
children. -/
def walkEntry (g : Option (String → Bool)) (root rel : String) :
    FSEntry → List (String × List String)
  | .file _ => []
  | .dir n nig ncs =>
    if gMatches g (joinRel rel n) then []
    else (root ++ "/" ++ n,
        (filesOf ncs).filter (fun f => !(igMatches nig f))) ::
      walkChildren g (root ++ "/" ++ n) (joinRel rel n) nig ncs

/-- The walk of the children of the directory at `root` / `rel` whose
local spec is `ig`: `dirs[:] = [d for d in dirs if not
local_spec.match_file(d)]` prunes a child directory whose bare name the
parent's local spec matches; the kept entries are visited in order. -/
def walkChildren (g : Option (String → Bool)) (root rel : String)
    (ig : Option (String → Bool)) : List FSEntry → List (String × List String)
  | [] => []
  | e :: rest =>
    (if igMatches ig (nameOf e) then [] else walkEntry g root rel e) ++
      walkChildren g root rel ig rest

end

/-- `walk_with_gitignore(base_dir, global_spec)` as the list of
`(root, files)` pairs it yields (the `dirs` component is omitted: the sole
caller `find_files` ignores it). The scanned root is modelled by its local
`.gitignore` matcher `ig` and its children `cs`; at the root itself
`rel_root == "."`, so the global spec is never consulted. -/
def walk_with_gitignore (base_dir : String) (g : Option (String → Bool))
    (ig : Option (String → Bool)) (cs : List FSEntry) :
    List (String × List String) :=
  (base_dir, (filesOf cs).filter (fun f => !(igMatches ig f))) ::
    walkChildren g base_dir "" ig cs

/-- `find_files(base_dir, filename_regex, global_spec)`: for every yielded
triple, every file whose name the pattern fully matches (`re.fullmatch`,
abstracted as the predicate `m` on the whole name) is appended as
`os.path.join(root, file)`. -/
def find_files (base_dir : String) (m : String → Bool)
    (g : Option (String → Bool)) (ig : Option (String → Bool))
    (cs : List FSEntry) : List String :=
  (walk_with_gitignore base_dir g ig cs).flatMap
    (fun rf => (rf.2.filter m).map (fun f => rf.1 ++ "/" ++ f))

theorem walkChildren_congr (g : Option (String → Bool)) (root rel : String)
    (ig₁ ig₂ : Option (String → Bool)) : ∀ cs : List FSEntry,
    (∀ e ∈ cs, igMatches ig₁ (nameOf e) = igMatches ig₂ (nameOf e)) →
    walkChildren g root rel ig₁ cs = walkChildren g root rel ig₂ cs := by
  intro cs
  induction cs with
  | nil => intro _; rfl
  | cons e rest ih =>
    intro h
    show (if igMatches ig₁ (nameOf e) then [] else walkEntry g root rel e) ++
        walkChildren g root rel ig₁ rest = _
    rw [h e (List.mem_cons_self _ _), ih (fun e he => h e (List.mem_cons_of_mem _ he))]
    rfl

/-- C8 (amended): (1) `find_files` returns exactly the paths
`root ++ "/" ++ f` for the pairs `(root, files)` yielded by the filtered
walk and the file names `f` in them fully matching the pattern; (2) the
root-level (global) ignore spec is consulted only against the relative
paths of directories: a matched directory is pruned — its triple is
suppressed and it is not descended into; (3) an ignore file local to a
directory prunes an immediate child directory whose bare name it matches;
(4) it likewise drops an immediate file child whose bare name it matches
from the directory's yielded file list; (5) a local ignore spec reaches no
deeper than the immediate children: the walk of the children depends on
the parent's spec only through its verdict on their bare names. The
original claim's stronger reading — every path covered by the root-level
ignore file is excluded, and intermediate ignore files apply cumulatively
below their directory — is refuted by `C8_counterexample`. -/
theorem C8_path_discovery :
    (∀ (base : String) (m : String → Bool) (g ig : Option (String → Bool))
        (cs : List FSEntry) (p : String),
      p ∈ find_files base m g ig cs ↔
        ∃ rf ∈ walk_with_gitignore base g ig cs,
          ∃ f ∈ rf.2, m f = true ∧ p = rf.1 ++ "/" ++ f) ∧
    (∀ (g : Option (String → Bool)) (root rel n : String)
        (nig : Option (String → Bool)) (ncs : List FSEntry),
      gMatches g (joinRel rel n) = true →
      walkEntry g root rel (.dir n nig ncs) = []) ∧
    (∀ (g : Option (String → Bool)) (root rel : String) (m : String → Bool)
        (e : FSEntry) (rest : List FSEntry),
      m (nameOf e) = true →
      walkChildren g root rel (some m) (e :: rest) =
        walkChildren g root rel (some m) rest) ∧
    (∀ (base : String) (g ig : Option (String → Bool)) (cs : List FSEntry)
        (f : String),
      igMatches ig f = true →
      f ∉ ((walk_with_gitignore base g ig cs).headD (base, [])).2) ∧
    (∀ (g : Option (String → Bool)) (root rel : String)
        (ig₁ ig₂ : Option (String → Bool)) (cs : List FSEntry),
      (∀ e ∈ cs, igMatches ig₁ (nameOf e) = igMatches ig₂ (nameOf e)) →
      walkChildren g root rel ig₁ cs = walkChildren g root rel ig₂ cs) := by
  refine ⟨?_, ?_, ?_, ?_, ?_⟩
  · intro base m g ig cs p
    simp only [find_files, List.mem_flatMap, List.mem_map, List.mem_filter]
    constructor
    · rintro ⟨rf, hrf, f, ⟨hf, hm⟩, hp⟩
      exact ⟨rf, hrf, f, hf, hm, hp.symm⟩
    · rintro ⟨rf, hrf, f, hf, hm, hp⟩
      exact ⟨rf, hrf, f, ⟨hf, hm⟩, hp.symm⟩
  · intro g root rel n nig ncs h
    simp [walkEntry, h]
  · intro g root rel m e rest h
    show (if igMatches (some m) (nameOf e) then [] else walkEntry g root rel e) ++
        walkChildren g root rel (some m) rest = _
    simp [igMatches, h]
  · intro base g ig cs f h
    simp [walk_with_gitignore, List.mem_filter, h]
  · exact fun g root rel ig₁ ig₂ cs h => walkChildren_congr g root rel ig₁ ig₂ cs h

/-- C8 witness: the global spec matching relative path `sub` prunes that
directory; a local spec matching the bare name `junk` prunes that child;
a local spec matching file name `x` drops it from the root's yield; two
local specs agreeing on the immediate child names walk identically. -/
theorem C8_path_discovery_witness :
    walkEntry (some (fun p => p == "sub")) "b" ""
      (.dir "sub" none [.file "Dockerfile"]) = [] ∧
    walkChildren none "b" "" (some (fun n => n == "junk"))
      [.dir "junk" none [.file "Dockerfile"]] =
      walkChildren none "b" "" (some (fun n => n == "junk")) [] ∧
    "x" ∉ ((walk_with_gitignore "b" none (some (fun n => n == "x"))
      [.file "x"]).headD ("b", [])).2 ∧
    walkChildren none "b" "" none [.file "a"] =
      walkChildren none "b" "" (some (fun n => n == "c")) [.file "a"] :=
  ⟨C8_path_discovery.2.1 (some (fun p => p == "sub")) "b" "" "sub" none
      [.file "Dockerfile"] rfl,
   C8_path_discovery.2.2.1 none "b" "" (fun n => n == "junk")
      (.dir "junk" none [.file "Dockerfile"]) [] rfl,
   C8_path_discovery.2.2.2.1 "b" none (some (fun n => n == "x"))
      [.file "x"] "x" rfl,
   C8_path_discovery.2.2.2.2 none "b" "" none (some (fun n => n == "c"))
      [.file "a"] (by intro e he; rw [List.mem_singleton] at he; subst he; rfl)⟩

/-- C8 counterexample: (1) a file whose relative path `sub/Dockerfile` is
covered by the root-level ignore spec is nevertheless returned, because
the global spec is only ever consulted on directory relative paths; (2) a
root-level local `.gitignore` matching the bare name `debug.log` does not
exclude a file of that name one directory deeper, because a local spec
filters only the immediate children — "cumulative" exclusion during
descent does not happen. -/
theorem C8_counterexample :
    find_files "b" (fun f => f == "Dockerfile")
      (some (fun p => p == "sub/Dockerfile")) none
      [.dir "sub" none [.file "Dockerfile"]] = ["b/sub/Dockerfile"] ∧
    (fun p => p == "sub/Dockerfile") "sub/Dockerfile" = true ∧
    find_files "b" (fun f => f == "debug.log") none
      (some (fun n => n == "debug.log"))
      [.dir "sub" none [.file "debug.log"]] = ["b/sub/debug.log"] ∧
    (fun n => n == "debug.log") "debug.log" = true :=
  ⟨rfl, rfl, rfl, rfl⟩
